import Mathlib

/-!
Verification of the project-mutator script (`src/main.py`) of the
ClaudeCodeWriter repository, as a shallow embedding in Lean 4.

The script is a single linear pipeline:
environment-credential check, directory setup, conditional `git init`,
a per-file generation loop (mkdir of parents, read of any existing
content, prompt construction, streamed model request, full-overwrite
write), and a final `git add` + `git commit`.

The embedding models the filesystem as an association list from paths
(component lists) to entries, the streamed model response per file as
an oracle value (either a failure or the full ordered chunk list), the
external git tool's success as oracle booleans, and every externally
visible action as an event appended to a trace.
-/

namespace ClaudeCodeWriter

/-- A filesystem path, as its list of components. -/
abbrev Path := List String

/-- A filesystem entry: a regular file with its textual content, or a directory. -/
inductive Entry
  | file (content : String)
  | dir
deriving DecidableEq, Repr

/-- The filesystem: an association list from paths to entries.
Later bindings shadow earlier ones; entries are only ever added. -/
abbrev Fs := List (Path × Entry)

/-- Look up the entry at a path (first binding wins). -/
def Fs.find : Fs → Path → Option Entry
  | [], _ => none
  | (q, e) :: rest, p => if q = p then some e else Fs.find rest p

/-- Bind a path to an entry, shadowing any previous binding. -/
def Fs.set (fs : Fs) (p : Path) (e : Entry) : Fs := (p, e) :: fs

/-- Split a list of characters at every `/`, accumulating the current
component in reverse. -/
def splitSlash : List Char → List Char → List String
  | [], acc => [String.mk acc.reverse]
  | c :: cs, acc =>
    if c = '/' then String.mk acc.reverse :: splitSlash cs [] else splitSlash cs (c :: acc)

/-- Split a relative file path (as given on the command line) into its
slash-separated components, mirroring the path joining of
`project_path / file_path` in `main.py` line 74. -/
def components (s : String) : Path := splitSlash s.data []

/-- The parent directory of a path (`full_path.parent`, `main.py` line 77). -/
def parentOf (p : Path) : Path := p.dropLast

/-- All nonempty prefixes of a path, shortest first: the chain of directories
that `mkdir(parents=True, exist_ok=True)` ensures, ancestors before children. -/
def prefixes (p : Path) : List Path := (List.range p.length).map (fun i => p.take (i + 1))

/-- Render a path for display in messages. -/
def pathStr (p : Path) : String := String.intercalate "/" p

/-- The `delta` object inside a streamed chunk's first choice: its optional
`content` field (`chunk["choices"][0].get("delta", {}).get("content", "")`,
`main.py` line 109; `none` models a missing or null field). -/
structure Delta where
  content : Option String
deriving DecidableEq, Repr

/-- One element of a chunk's `choices` array; `delta` may be absent. -/
structure Choice where
  delta : Option Delta
deriving DecidableEq, Repr

/-- One streamed chunk of the model response; `choices` is `none` when the
chunk carries no `"choices"` key (`"choices" in chunk`, `main.py` line 108). -/
structure Chunk where
  choices : Option (List Choice)
deriving DecidableEq, Repr

/-- The text carried by a chunk, following the guard and lookup chain of
`main.py` lines 108-109: `none` when the chunk has no choices, an empty
choices list, a missing delta, or a missing/null content field. -/
def chunkContent (c : Chunk) : Option String :=
  match c.choices with
  | some (ch :: _) =>
    match ch.delta with
    | some d => some (d.content.getD "")
    | none => some ""
  | _ => none

/-- One loop iteration of the accumulation of `main.py` lines 107-112:
append the chunk's text when it is present and nonempty (the `if content:`
truthiness guard of line 110). -/
def ncStep (acc : String) (c : Chunk) : String :=
  match chunkContent c with
  | some s => if s = "" then acc else acc ++ s
  | none => acc

/-- The accumulated `new_content` string of `main.py` lines 100-112. -/
def newContent (chunks : List Chunk) : String := chunks.foldl ncStep ""

/-- The text fragments of a streamed response, in arrival order, as the spec
describes them: every chunk's carried text, kept in sequence. -/
def fragmentsSpec (chunks : List Chunk) : List String := chunks.filterMap chunkContent

/-- The action verb of the prompt, chosen by Python truthiness of
`existing_content` (`main.py` lines 87, 92): create when the prior content is
empty, modify otherwise. -/
def promptAction (existing : String) : String := if existing = "" then "创建" else "修改"

/-- The prompt f-string of `main.py` lines 86-95, with its two
content-dependent branches. -/
def buildPrompt (projectType description filePath existing : String) : String :=
  "\n你的任务是为一个" ++ projectType ++ "项目" ++ promptAction existing ++ "文件。\n\n项目描述: "
    ++ description ++ "\n文件路径: " ++ filePath ++ "\n\n"
    ++ (if existing = "" then "请生成适合该文件路径的内容:" else "以下是现有文件内容，请在需要的地方进行修改:")
    ++ "\n\n" ++ existing ++ "\n"

/-- The prompt the spec prescribes for a file being created: it signals
create (the verb 创建) and contains no prior content. -/
def specCreatePrompt (projectType description filePath : String) : String :=
  "\n你的任务是为一个" ++ projectType ++ "项目创建文件。\n\n项目描述: " ++ description
    ++ "\n文件路径: " ++ filePath ++ "\n\n请生成适合该文件路径的内容:\n\n\n"

/-- The prompt the spec prescribes for a file being modified: it signals
modify (the verb 修改) and carries the prior content verbatim. -/
def specModifyPrompt (projectType description filePath existing : String) : String :=
  "\n你的任务是为一个" ++ projectType ++ "项目修改文件。\n\n项目描述: " ++ description
    ++ "\n文件路径: " ++ filePath ++ "\n\n以下是现有文件内容，请在需要的地方进行修改:\n\n"
    ++ existing ++ "\n"

/-- Externally visible actions of one invocation, in program order. -/
inductive Ev
  | message (s : String)
  | mkdirAt (p : Path)
  | fileRead (p : Path)
  | apiRequest (model prompt : String)
  | fileWrite (p : Path) (content : String)
  | gitInit
  | gitAdd
  | gitCommit (msg : String)
deriving DecidableEq, Repr

/-- Program state: the filesystem plus the trace of events so far. -/
structure St where
  fs : Fs
  evs : List Ev
deriving DecidableEq, Repr

/-- The invocation configuration from the command line (`main.py` lines 132-139). -/
structure Config where
  projectType : String
  description : String
  files : List String
  commitMessage : String
  model : String

/-- The environment's responses: per-file streamed model output (a failure or
the full chunk list, indexed by the file's position), and whether each git
invocation exits successfully (`check=True` raises otherwise). -/
structure Oracle where
  stream : Nat → Except Unit (List Chunk)
  initOk : Bool
  addOk : Bool
  commitOk : Bool

/-- Append one event to the trace. -/
def emit (st : St) (e : Ev) : St := ⟨st.fs, st.evs ++ [e]⟩

/-- The state carried by either outcome of a fallible step. -/
def outSt : Except St St → St
  | Except.ok st => st
  | Except.error st => st

/-- Create each listed directory in turn, mirroring
`mkdir(parents=True, exist_ok=True)` over an ancestor chain: an existing
directory is kept, a missing one is created, and a path already bound to a
regular file raises (`FileExistsError` / `NotADirectoryError`). -/
def mkdirAll (st : St) : List Path → Except St St
  | [] => Except.ok st
  | q :: qs =>
    match Fs.find st.fs q with
    | some (Entry.file _) => Except.error st
    | some Entry.dir => mkdirAll st qs
    | none => mkdirAll ⟨Fs.set st.fs q Entry.dir, st.evs ++ [Ev.mkdirAt q]⟩ qs

/-- `p.mkdir(parents=True, exist_ok=True)`: ensure every prefix of `p`. -/
def mkdirParents (st : St) (p : Path) : Except St St := mkdirAll st (prefixes p)

/-- The prior content of a file for prompt purposes: the file's content when a
regular file is present, empty otherwise (`main.py` lines 80-83). -/
def contentAt (fs : Fs) (p : Path) : String :=
  match Fs.find fs p with
  | some (Entry.file c) => c
  | _ => ""

/-- The tail of one file task after the existing content has been read
(`main.py` lines 86-118): build the prompt, issue the streamed request,
accumulate the chunks, and overwrite the file, or raise when the request or
stream fails, or when the target is a directory. -/
def generateAndWrite (cfg : Config) (oracle : Oracle) (full : Path) (filePath : String)
    (i : Nat) (st : St) (existing : String) : Except St St :=
  let prompt := buildPrompt cfg.projectType cfg.description filePath existing
  let st2 := emit st (Ev.apiRequest cfg.model prompt)
  match oracle.stream i with
  | Except.error _ => Except.error st2
  | Except.ok chunks =>
    let nc := newContent chunks
    match Fs.find st2.fs full with
    | some Entry.dir => Except.error st2
    | _ => Except.ok ⟨Fs.set st2.fs full (Entry.file nc), st2.evs ++ [Ev.fileWrite full nc]⟩

/-- One iteration of the per-file loop (`main.py` lines 73-118): resolve the
full path, ensure the parent directories, read any existing content (raising
when the path is a directory, as `open` would), then generate and write. -/
def processFile (cfg : Config) (oracle : Oracle) (root : Path) (filePath : String)
    (i : Nat) (st : St) : Except St St :=
  let full := root ++ components filePath
  match mkdirParents st (parentOf full) with
  | Except.error st1 => Except.error st1
  | Except.ok st1 =>
    match Fs.find st1.fs full with
    | some (Entry.file c) => generateAndWrite cfg oracle full filePath i (emit st1 (Ev.fileRead full)) c
    | some Entry.dir => Except.error st1
    | none => generateAndWrite cfg oracle full filePath i st1 ""

/-- The per-file loop over the remaining file list, `i` being the position of
the head within the full list; the first raised error aborts the rest. -/
def processFiles (cfg : Config) (oracle : Oracle) (root : Path) :
    List String → Nat → St → Except St St
  | [], _, st => Except.ok st
  | fp :: rest, i, st =>
    match processFile cfg oracle root fp i st with
    | Except.error st1 => Except.error st1
    | Except.ok st1 => processFiles cfg oracle root rest (i + 1) st1

/-- The `.git` metadata path under the project root. -/
def gitPath (root : Path) : Path := root ++ [".git"]

/-- Modelled from the spec: the filesystem effect of the external `git init`
tool, which is not part of this repository — it initializes version-control
metadata in place, creating the `.git` entry when it is absent. -/
def gitInitFs (fs : Fs) (root : Path) : Fs :=
  match Fs.find fs (gitPath root) with
  | none => Fs.set fs (gitPath root) Entry.dir
  | some _ => fs

/-- The conditional repository initialization of `main.py` lines 67-70:
run `git init` exactly when the project is new or the `.git` entry is absent. -/
def ensureGit (oracle : Oracle) (root : Path) (isNew : Bool) (st : St) : Except St St :=
  if isNew || (Fs.find st.fs (gitPath root)).isNone then
    let st1 := emit st Ev.gitInit
    if oracle.initOk then Except.ok ⟨gitInitFs st1.fs root, st1.evs⟩ else Except.error st1
  else Except.ok st

/-- The credential error message of `main.py` line 29. -/
def keyErrMsg : String := "错误：未找到OPENAI_API_KEY环境变量。请在.env文件中设置。"

/-- The not-a-directory error message of `main.py` line 64. -/
def notADirMsg (root : Path) : String := "错误：" ++ pathStr root ++ " 不是一个目录"

/-- Outcome of the directory-setup and repository-initialization steps. -/
inductive SetupResult
  | proceed (st : St) (isNew : Bool)
  | notADir (st : St)
  | failed (st : St)
deriving Repr

/-- Directory setup and repository initialization (`main.py` lines 54-70):
an absent path is created with its parents and marked new; an existing
non-directory prints an error and returns normally; then `git init` runs
under the condition of line 68. -/
def dirSetupAndInit (oracle : Oracle) (root : Path) (fs0 : Fs) : SetupResult :=
  let st0 : St := ⟨fs0, []⟩
  match Fs.find fs0 root with
  | some (Entry.file _) => SetupResult.notADir (emit st0 (Ev.message (notADirMsg root)))
  | some Entry.dir =>
    match ensureGit oracle root false st0 with
    | Except.ok st1 => SetupResult.proceed st1 false
    | Except.error st1 => SetupResult.failed st1
  | none =>
    match mkdirAll st0 (prefixes root) with
    | Except.error st1 => SetupResult.failed st1
    | Except.ok st1 =>
      match ensureGit oracle root true st1 with
      | Except.ok st2 => SetupResult.proceed st2 true
      | Except.error st2 => SetupResult.failed st2

/-- The final stage-and-commit step (`main.py` lines 122-123): one `git add .`
followed by one `git commit -m`; either failure raises. -/
def finalizeCommit (cfg : Config) (oracle : Oracle) (st : St) : St × Bool :=
  let st1 := emit st Ev.gitAdd
  if oracle.addOk then
    let st2 := emit st1 (Ev.gitCommit cfg.commitMessage)
    (st2, !oracle.commitOk)
  else (st1, true)

/-- `create_or_modify_project` (`main.py` lines 35-125): directory setup and
initialization, the per-file loop, then stage and commit. The boolean records
whether an exception propagated out of the call. -/
def create_or_modify_project (cfg : Config) (oracle : Oracle) (root : Path) (fs0 : Fs) :
    St × Bool :=
  match dirSetupAndInit oracle root fs0 with
  | SetupResult.notADir st => (st, false)
  | SetupResult.failed st => (st, true)
  | SetupResult.proceed st _ =>
    match processFiles cfg oracle root cfg.files 0 st with
    | Except.error st1 => (st1, true)
    | Except.ok st1 => finalizeCommit cfg oracle st1

/-- The whole process (`main.py` lines 27-32 and 128-148): the credential
check at import time (Python truthiness: an absent or empty key exits with
status 1 before any other action), then the mutator; an uncaught exception
terminates with a nonzero status. Result: final filesystem, trace, exit code. -/
def program (apiKey : Option String) (cfg : Config) (oracle : Oracle) (root : Path)
    (fs0 : Fs) : Fs × List Ev × Nat :=
  match apiKey with
  | none => (fs0, [Ev.message keyErrMsg], 1)
  | some k =>
    if k = "" then (fs0, [Ev.message keyErrMsg], 1)
    else
      let r := create_or_modify_project cfg oracle root fs0
      (r.1.fs, r.1.evs, if r.2 then 1 else 0)

/-- The absolute paths written by the loop, one per listed file, in order. -/
def resolvedPaths (root : Path) (files : List String) : List Path :=
  files.map (fun fp => root ++ components fp)

/-- The paths of the file-write events of a trace, in order. -/
def writesOf (evs : List Ev) : List Path :=
  evs.filterMap (fun e => match e with | Ev.fileWrite p _ => some p | _ => none)

/-- The prompts of the model-request events of a trace, in order. -/
def promptsOf (evs : List Ev) : List String :=
  evs.filterMap (fun e => match e with | Ev.apiRequest _ p => some p | _ => none)

/-- The messages of the commit events of a trace, in order. -/
def commitsOf (evs : List Ev) : List String :=
  evs.filterMap (fun e => match e with | Ev.gitCommit m => some m | _ => none)

/-- One trace event's effect on the record of the last write to path `p`. -/
def writeStep (p : Path) (acc : Option String) (e : Ev) : Option String :=
  match e with
  | Ev.fileWrite q c => if q = p then some c else acc
  | _ => acc

/-- The content of the last write to a path recorded in a trace, if any. -/
def lastWriteAt (evs : List Ev) (p : Path) : Option String :=
  evs.foldl (writeStep p) none

/-- Concatenation of a list of strings, in order. -/
def concatAll : List String → String
  | [] => ""
  | s :: rest => s ++ concatAll rest

/-- The written-content invariant: every path whose last recorded write in the
trace carried content `c` currently holds a regular file with content `c`. -/
def WInv (st : St) : Prop :=
  ∀ p c, lastWriteAt st.evs p = some c → Fs.find st.fs p = some (Entry.file c)

/-! ## Basic lemmas about the filesystem and trace projections -/

theorem Fs.find_set (fs : Fs) (p q : Path) (e : Entry) :
    Fs.find (Fs.set fs p e) q = if p = q then some e else Fs.find fs q := rfl

theorem writesOf_append (a b : List Ev) : writesOf (a ++ b) = writesOf a ++ writesOf b := by
  simp [writesOf, List.filterMap_append]

theorem promptsOf_append (a b : List Ev) : promptsOf (a ++ b) = promptsOf a ++ promptsOf b := by
  simp [promptsOf, List.filterMap_append]

theorem commitsOf_append (a b : List Ev) : commitsOf (a ++ b) = commitsOf a ++ commitsOf b := by
  simp [commitsOf, List.filterMap_append]

theorem lastWriteAt_append (a b : List Ev) (p : Path) :
    lastWriteAt (a ++ b) p = b.foldl (writeStep p) (lastWriteAt a p) := by
  simp [lastWriteAt, List.foldl_append]

/-- Whether an event is a file write. -/
def isWriteEv : Ev → Bool
  | Ev.fileWrite _ _ => true
  | _ => false

theorem foldl_writeStep_no_write (p : Path) (Δ : List Ev) (acc : Option String)
    (h : ∀ e ∈ Δ, isWriteEv e = false) : Δ.foldl (writeStep p) acc = acc := by
  induction Δ generalizing acc with
  | nil => rfl
  | cons e Δ ih =>
    have he : isWriteEv e = false := h e (List.mem_cons_self e Δ)
    have hstep : writeStep p acc e = acc := by
      cases e <;> try rfl
      simp [isWriteEv] at he
    rw [List.foldl_cons, hstep]
    exact ih acc (fun e' he' => h e' (List.mem_cons_of_mem e he'))

theorem concatAll_nil : concatAll [] = "" := rfl

theorem concatAll_cons (s : String) (rest : List String) :
    concatAll (s :: rest) = s ++ concatAll rest := rfl

/-! ## Lemmas about `mkdirAll` -/

theorem mkdirAll_evs (ps : List Path) (st : St) :
    ∃ Δ, (outSt (mkdirAll st ps)).evs = st.evs ++ Δ ∧ ∀ e ∈ Δ, ∃ q, e = Ev.mkdirAt q := by
  induction ps generalizing st with
  | nil => exact ⟨[], by simp [mkdirAll, outSt], by simp⟩
  | cons q qs ih =>
    cases hfind : Fs.find st.fs q with
    | none =>
      obtain ⟨Δ, h1, h2⟩ := ih ⟨Fs.set st.fs q Entry.dir, st.evs ++ [Ev.mkdirAt q]⟩
      refine ⟨Ev.mkdirAt q :: Δ, ?_, ?_⟩
      · simp only [mkdirAll, hfind]
        simpa using h1
      · intro e he
        rcases List.mem_cons.mp he with h | h
        · exact ⟨q, h⟩
        · exact h2 e h
    | some e =>
      cases e with
      | file c => exact ⟨[], by simp [mkdirAll, hfind, outSt], by simp⟩
      | dir =>
        obtain ⟨Δ, h1, h2⟩ := ih st
        exact ⟨Δ, by simpa [mkdirAll, hfind] using h1, h2⟩

theorem mkdirAll_fs_mono (ps : List Path) (st : St) (p : Path) (e : Entry)
    (h : Fs.find st.fs p = some e) : Fs.find (outSt (mkdirAll st ps)).fs p = some e := by
  induction ps generalizing st with
  | nil => simpa [mkdirAll, outSt]
  | cons q qs ih =>
    cases hfind : Fs.find st.fs q with
    | none =>
      have hpq : q ≠ p := fun hqp => by rw [hqp, h] at hfind; cases hfind
      have : Fs.find (Fs.set st.fs q Entry.dir) p = some e := by
        rw [Fs.find_set]; simp [hpq, h]
      simpa only [mkdirAll, hfind] using
        ih ⟨Fs.set st.fs q Entry.dir, st.evs ++ [Ev.mkdirAt q]⟩ this
    | some e' =>
      cases e' with
      | file c => simpa [mkdirAll, hfind, outSt]
      | dir => simpa only [mkdirAll, hfind] using ih st h

theorem mkdirAll_untouched (ps : List Path) (st : St) (p : Path) (hp : p ∉ ps) :
    Fs.find (outSt (mkdirAll st ps)).fs p = Fs.find st.fs p := by
  induction ps generalizing st with
  | nil => simp [mkdirAll, outSt]
  | cons q qs ih =>
    have hpq : q ≠ p := fun hqp => hp (by rw [hqp]; exact List.mem_cons_self p qs)
    have hp' : p ∉ qs := fun h => hp (List.mem_cons_of_mem q h)
    cases hfind : Fs.find st.fs q with
    | none =>
      have := ih ⟨Fs.set st.fs q Entry.dir, st.evs ++ [Ev.mkdirAt q]⟩ hp'
      simp only [mkdirAll, hfind]
      rw [this, Fs.find_set]
      simp [hpq]
    | some e' =>
      cases e' with
      | file c => simp [mkdirAll, hfind, outSt]
      | dir => simpa only [mkdirAll, hfind] using ih st hp'

theorem mkdirAll_fs_cases (ps : List Path) (st : St) (p : Path) :
    Fs.find (outSt (mkdirAll st ps)).fs p = Fs.find st.fs p ∨
      (Fs.find st.fs p = none ∧ Fs.find (outSt (mkdirAll st ps)).fs p = some Entry.dir) := by
  induction ps generalizing st with
  | nil => left; simp [mkdirAll, outSt]
  | cons q qs ih =>
    cases hfind : Fs.find st.fs q with
    | none =>
      rcases ih ⟨Fs.set st.fs q Entry.dir, st.evs ++ [Ev.mkdirAt q]⟩ with h | ⟨h1, h2⟩
      · simp only [mkdirAll, hfind]
        rw [h, Fs.find_set]
        by_cases hqp : q = p
        · subst hqp; right; exact ⟨hfind, by simp⟩
        · left; simp [hqp]
      · simp only [mkdirAll, hfind]
        rw [Fs.find_set] at h1
        by_cases hqp : q = p
        · simp [hqp] at h1
        · right
          simp only [hqp, if_false] at h1
          exact ⟨h1, h2⟩
    | some e' =>
      cases e' with
      | file c => left; simp [mkdirAll, hfind, outSt]
      | dir => simpa only [mkdirAll, hfind] using ih st

theorem mkdirAll_ok_of_noFiles (ps : List Path) (st : St)
    (h : ∀ q ∈ ps, ∀ c, Fs.find st.fs q ≠ some (Entry.file c)) :
    ∃ st1, mkdirAll st ps = Except.ok st1 := by
  induction ps generalizing st with
  | nil => exact ⟨st, rfl⟩
  | cons q qs ih =>
    cases hfind : Fs.find st.fs q with
    | none =>
      have h' : ∀ q' ∈ qs, ∀ c,
          Fs.find (Fs.set st.fs q Entry.dir) q' ≠ some (Entry.file c) := by
        intro q' hq' c
        rw [Fs.find_set]
        by_cases hqq : q = q'
        · simp [hqq]
        · simp only [hqq, if_false]
          exact h q' (List.mem_cons_of_mem q hq') c
      obtain ⟨st1, h1⟩ := ih ⟨Fs.set st.fs q Entry.dir, st.evs ++ [Ev.mkdirAt q]⟩ h'
      exact ⟨st1, by simp [mkdirAll, hfind, h1]⟩
    | some e' =>
      cases e' with
      | file c => exact absurd hfind (h q (List.mem_cons_self q qs) c)
      | dir =>
        obtain ⟨st1, h1⟩ := ih st
          (fun q' hq' c => h q' (List.mem_cons_of_mem q hq') c)
        exact ⟨st1, by simp [mkdirAll, hfind, h1]⟩

theorem mkdirAll_ok_dirs (ps : List Path) (st st1 : St)
    (h : mkdirAll st ps = Except.ok st1) : ∀ q ∈ ps, Fs.find st1.fs q = some Entry.dir := by
  induction ps generalizing st with
  | nil => simp
  | cons q qs ih =>
    intro q' hq'
    cases hfind : Fs.find st.fs q with
    | none =>
      have heq : mkdirAll ⟨Fs.set st.fs q Entry.dir, st.evs ++ [Ev.mkdirAt q]⟩ qs
          = Except.ok st1 := by simpa [mkdirAll, hfind] using h
      rcases List.mem_cons.mp hq' with hh | hh
      · subst hh
        have hbase : Fs.find (Fs.set st.fs q' Entry.dir) q' = some Entry.dir := by
          rw [Fs.find_set]; simp
        have := mkdirAll_fs_mono qs ⟨Fs.set st.fs q' Entry.dir, st.evs ++ [Ev.mkdirAt q']⟩
          q' Entry.dir hbase
        rwa [heq] at this
      · exact ih ⟨Fs.set st.fs q Entry.dir, st.evs ++ [Ev.mkdirAt q]⟩ heq q' hh
    | some e' =>
      cases e' with
      | file c => simp [mkdirAll, hfind] at h
      | dir =>
        have heq : mkdirAll st qs = Except.ok st1 := by simpa [mkdirAll, hfind] using h
        rcases List.mem_cons.mp hq' with hh | hh
        · subst hh
          have := mkdirAll_fs_mono qs st q' Entry.dir hfind
          rwa [heq] at this
        · exact ih st heq q' hh

/-! ## Lemmas about one file task -/

/-- Whether an event is a version-control action. -/
def isGitEv : Ev → Bool
  | Ev.gitInit => true
  | Ev.gitAdd => true
  | Ev.gitCommit _ => true
  | _ => false

theorem commitsOf_eq_nil (Δ : List Ev) (h : ∀ e ∈ Δ, isGitEv e = false) :
    commitsOf Δ = [] := by
  induction Δ with
  | nil => rfl
  | cons e Δ ih =>
    have he := h e (List.mem_cons_self e Δ)
    have ht := ih (fun e' he' => h e' (List.mem_cons_of_mem e he'))
    cases e <;> simp [commitsOf] at ht ⊢ <;> first
      | exact ht
      | simp [isGitEv] at he

theorem writesOf_eq_nil (Δ : List Ev) (h : ∀ e ∈ Δ, isWriteEv e = false) :
    writesOf Δ = [] := by
  induction Δ with
  | nil => rfl
  | cons e Δ ih =>
    have he := h e (List.mem_cons_self e Δ)
    have ht := ih (fun e' he' => h e' (List.mem_cons_of_mem e he'))
    cases e <;> simp [writesOf] at ht ⊢ <;> first
      | exact ht
      | simp [isWriteEv] at he

theorem promptsOf_eq_nil (Δ : List Ev) (h : ∀ e ∈ Δ, ∀ m p, e ≠ Ev.apiRequest m p) :
    promptsOf Δ = [] := by
  induction Δ with
  | nil => rfl
  | cons e Δ ih =>
    have he := h e (List.mem_cons_self e Δ)
    have ht := ih (fun e' he' => h e' (List.mem_cons_of_mem e he'))
    cases e <;> simp [promptsOf] at ht ⊢ <;> try exact ht
    exact absurd rfl (he _ _)

theorem commitsOf_eq_nil_no_commit (Δ : List Ev) (h : ∀ e ∈ Δ, ∀ m, e ≠ Ev.gitCommit m) :
    commitsOf Δ = [] := by
  induction Δ with
  | nil => rfl
  | cons e Δ ih =>
    have he := h e (List.mem_cons_self e Δ)
    have ht := ih (fun e' he' => h e' (List.mem_cons_of_mem e he'))
    cases e <;> simp [commitsOf] at ht ⊢ <;> try exact ht
    exact absurd rfl (he _)

theorem count_eq_zero_of_isGitEv_false (Δ : List Ev) (g : Ev) (hg : isGitEv g = true)
    (h : ∀ e ∈ Δ, isGitEv e = false) : Δ.count g = 0 := by
  rw [List.count_eq_zero]
  intro hmem
  rw [h g hmem] at hg
  cases hg

theorem gw_prompts (cfg : Config) (oracle : Oracle) (full : Path) (fp : String) (i : Nat)
    (st : St) (ex : String) :
    promptsOf (outSt (generateAndWrite cfg oracle full fp i st ex)).evs =
      promptsOf st.evs ++ [buildPrompt cfg.projectType cfg.description fp ex] := by
  cases hs : oracle.stream i with
  | error u => simp [generateAndWrite, hs, outSt, emit, promptsOf_append, promptsOf]
  | ok chunks =>
    cases hf : Fs.find st.fs full with
    | none =>
      simp [generateAndWrite, hs, outSt, emit, hf, promptsOf_append, promptsOf]
    | some e =>
      cases e <;>
        simp [generateAndWrite, hs, outSt, emit, hf, promptsOf_append, promptsOf]

theorem gw_writes_ok (cfg : Config) (oracle : Oracle) (full : Path) (fp : String) (i : Nat)
    (st st' : St) (ex : String)
    (h : generateAndWrite cfg oracle full fp i st ex = Except.ok st') :
    writesOf st'.evs = writesOf st.evs ++ [full] := by
  cases hs : oracle.stream i with
  | error u => simp [generateAndWrite, hs] at h
  | ok chunks =>
    cases hf : Fs.find st.fs full with
    | none =>
      simp [generateAndWrite, hs, emit, hf] at h
      rw [← h]
      simp [writesOf_append, writesOf]
    | some e =>
      cases e with
      | file c =>
        simp [generateAndWrite, hs, emit, hf] at h
        rw [← h]
        simp [writesOf_append, writesOf]
      | dir => simp [generateAndWrite, hs, emit, hf] at h

theorem gw_writes_err (cfg : Config) (oracle : Oracle) (full : Path) (fp : String) (i : Nat)
    (st st' : St) (ex : String)
    (h : generateAndWrite cfg oracle full fp i st ex = Except.error st') :
    writesOf st'.evs = writesOf st.evs := by
  cases hs : oracle.stream i with
  | error u =>
    simp [generateAndWrite, hs, emit] at h
    rw [← h]
    simp [writesOf_append, writesOf]
  | ok chunks =>
    cases hf : Fs.find st.fs full with
    | none => simp [generateAndWrite, hs, emit, hf] at h
    | some e =>
      cases e with
      | file c => simp [generateAndWrite, hs, emit, hf] at h
      | dir =>
        simp [generateAndWrite, hs, emit, hf] at h
        rw [← h]
        simp [writesOf_append, writesOf]

theorem gw_evs_shape (cfg : Config) (oracle : Oracle) (full : Path) (fp : String) (i : Nat)
    (st : St) (ex : String) :
    ∃ Δ, (outSt (generateAndWrite cfg oracle full fp i st ex)).evs = st.evs ++ Δ ∧
      ∀ e ∈ Δ, isGitEv e = false := by
  cases hs : oracle.stream i with
  | error u =>
    refine ⟨[Ev.apiRequest cfg.model (buildPrompt cfg.projectType cfg.description fp ex)],
      ?_, ?_⟩
    · simp [generateAndWrite, hs, outSt, emit]
    · intro e he
      simp at he
      subst he
      rfl
  | ok chunks =>
    cases hf : Fs.find st.fs full with
    | none =>
      refine ⟨[Ev.apiRequest cfg.model (buildPrompt cfg.projectType cfg.description fp ex),
        Ev.fileWrite full (newContent chunks)], ?_, ?_⟩
      · simp [generateAndWrite, hs, outSt, emit, hf]
      · intro e he
        simp at he
        rcases he with he | he <;> subst he <;> rfl
    | some e =>
      cases e with
      | file c =>
        refine ⟨[Ev.apiRequest cfg.model (buildPrompt cfg.projectType cfg.description fp ex),
          Ev.fileWrite full (newContent chunks)], ?_, ?_⟩
        · simp [generateAndWrite, hs, outSt, emit, hf]
        · intro e he
          simp at he
          rcases he with he | he <;> subst he <;> rfl
      | dir =>
        refine ⟨[Ev.apiRequest cfg.model (buildPrompt cfg.projectType cfg.description fp ex)],
          ?_, ?_⟩
        · simp [generateAndWrite, hs, outSt, emit, hf]
        · intro e he
          simp at he
          subst he
          rfl

theorem gw_fs (cfg : Config) (oracle : Oracle) (full : Path) (fp : String) (i : Nat)
    (st : St) (ex : String) (p : Path) (e : Entry) (h : Fs.find st.fs p = some e) :
    Fs.find (outSt (generateAndWrite cfg oracle full fp i st ex)).fs p = some e ∨
      (p = full ∧ ∃ c, Fs.find (outSt (generateAndWrite cfg oracle full fp i st ex)).fs p
        = some (Entry.file c)) := by
  cases hs : oracle.stream i with
  | error u => left; simpa [generateAndWrite, hs, outSt, emit]
  | ok chunks =>
    cases hf : Fs.find st.fs full with
    | none =>
      by_cases hpf : p = full
      · subst hpf
        right
        refine ⟨rfl, newContent chunks, ?_⟩
        simp [generateAndWrite, hs, outSt, emit, hf, Fs.find_set]
      · left
        simp [generateAndWrite, hs, outSt, emit, hf, Fs.find_set]
        rw [if_neg (fun hh => hpf hh.symm)]
        exact h
    | some e' =>
      cases e' with
      | file c =>
        by_cases hpf : p = full
        · subst hpf
          right
          refine ⟨rfl, newContent chunks, ?_⟩
          simp [generateAndWrite, hs, outSt, emit, hf, Fs.find_set]
        · left
          simp [generateAndWrite, hs, outSt, emit, hf, Fs.find_set]
          rw [if_neg (fun hh => hpf hh.symm)]
          exact h
      | dir => left; simpa [generateAndWrite, hs, outSt, emit, hf]

theorem gw_ok_content (cfg : Config) (oracle : Oracle) (full : Path) (fp : String) (i : Nat)
    (st st' : St) (ex : String) (chunks : List Chunk) (hs : oracle.stream i = Except.ok chunks)
    (h : generateAndWrite cfg oracle full fp i st ex = Except.ok st') :
    Fs.find st'.fs full = some (Entry.file (newContent chunks)) := by
  cases hf : Fs.find st.fs full with
  | none =>
    simp [generateAndWrite, hs, emit, hf] at h
    rw [← h]
    simp [Fs.find_set]
  | some e =>
    cases e with
    | file c =>
      simp [generateAndWrite, hs, emit, hf] at h
      rw [← h]
      simp [Fs.find_set]
    | dir => simp [generateAndWrite, hs, emit, hf] at h

theorem gw_err_of_stream (cfg : Config) (oracle : Oracle) (full : Path) (fp : String)
    (i : Nat) (st : St) (ex : String) (hs : oracle.stream i = Except.error ()) :
    generateAndWrite cfg oracle full fp i st ex =
      Except.error (emit st (Ev.apiRequest cfg.model
        (buildPrompt cfg.projectType cfg.description fp ex))) := by
  simp [generateAndWrite, hs]

theorem lastWriteAt_concat (evs : List Ev) (e : Ev) (p : Path) :
    lastWriteAt (evs ++ [e]) p = writeStep p (lastWriteAt evs p) e := by
  simp [lastWriteAt, List.foldl_append]

theorem lastWriteAt_no_write_ext (evs Δ : List Ev) (p : Path)
    (h : ∀ e ∈ Δ, isWriteEv e = false) : lastWriteAt (evs ++ Δ) p = lastWriteAt evs p := by
  rw [lastWriteAt_append]
  exact foldl_writeStep_no_write p Δ _ h

theorem gw_WInv (cfg : Config) (oracle : Oracle) (full : Path) (fp : String) (i : Nat)
    (st : St) (ex : String) (hw : WInv st) :
    WInv (outSt (generateAndWrite cfg oracle full fp i st ex)) := by
  have hapi : isWriteEv (Ev.apiRequest cfg.model
      (buildPrompt cfg.projectType cfg.description fp ex)) = false := rfl
  cases hs : oracle.stream i with
  | error u =>
    intro p c hlw
    simp only [generateAndWrite, hs, outSt, emit] at hlw ⊢
    rw [lastWriteAt_no_write_ext _ _ _ (by intro e he; simp at he; subst he; rfl)] at hlw
    exact hw p c hlw
  | ok chunks =>
    have main : ∀ st2 : St, WInv st2 →
        WInv (outSt (match Fs.find st2.fs full with
          | some Entry.dir => Except.error st2
          | _ => Except.ok ⟨Fs.set st2.fs full (Entry.file (newContent chunks)),
              st2.evs ++ [Ev.fileWrite full (newContent chunks)]⟩)) := by
      intro st2 hw2
      cases hf : Fs.find st2.fs full with
      | none =>
        intro p c hlw
        simp only [outSt] at hlw ⊢
        rw [lastWriteAt_concat] at hlw
        simp only [writeStep] at hlw
        rw [Fs.find_set]
        by_cases hfp : full = p
        · subst hfp
          simp at hlw
          simp [← hlw]
        · rw [if_neg hfp] at hlw ⊢
          exact hw2 p c hlw
      | some e =>
        cases e with
        | dir =>
          intro p c hlw
          simp only [outSt] at hlw ⊢
          exact hw2 p c hlw
        | file c0 =>
          intro p c hlw
          simp only [outSt] at hlw ⊢
          rw [lastWriteAt_concat] at hlw
          simp only [writeStep] at hlw
          rw [Fs.find_set]
          by_cases hfp : full = p
          · subst hfp
            simp at hlw
            simp [← hlw]
          · rw [if_neg hfp] at hlw ⊢
            exact hw2 p c hlw
    have hw2 : WInv (emit st (Ev.apiRequest cfg.model
        (buildPrompt cfg.projectType cfg.description fp ex))) := by
      intro p c hlw
      simp only [emit] at hlw ⊢
      rw [lastWriteAt_no_write_ext _ _ _ (by intro e he; simp at he; subst he; rfl)] at hlw
      exact hw p c hlw
    have := main (emit st (Ev.apiRequest cfg.model
      (buildPrompt cfg.projectType cfg.description fp ex))) hw2
    simpa [generateAndWrite, hs, emit] using this

/-! ## Path prefix lemmas -/

theorem prefixes_length_le (p q : Path) (h : q ∈ prefixes p) : q.length ≤ p.length := by
  simp only [prefixes, List.mem_map, List.mem_range] at h
  obtain ⟨i, _, rfl⟩ := h
  rw [List.length_take]
  exact Nat.min_le_right _ _

theorem not_mem_prefixes_parent (p : Path) (hp : p ≠ []) : p ∉ prefixes (parentOf p) := by
  intro h
  have h1 := prefixes_length_le (parentOf p) p h
  have h2 : (parentOf p).length = p.length - 1 := List.length_dropLast p
  have h3 : 0 < p.length := List.length_pos.mpr hp
  omega

theorem append_components_ne_nil (root : Path) (fp : String) (hroot : root ≠ []) :
    root ++ components fp ≠ [] := by
  intro h
  exact hroot (List.append_eq_nil.mp h).1

/-! ## Lemmas about `processFile` -/

theorem mkdirAt_isGitEv_false (Δ : List Ev) (h : ∀ e ∈ Δ, ∃ q, e = Ev.mkdirAt q) :
    ∀ e ∈ Δ, isGitEv e = false := by
  intro e he
  obtain ⟨q, rfl⟩ := h e he
  rfl

theorem mkdirAt_isWriteEv_false (Δ : List Ev) (h : ∀ e ∈ Δ, ∃ q, e = Ev.mkdirAt q) :
    ∀ e ∈ Δ, isWriteEv e = false := by
  intro e he
  obtain ⟨q, rfl⟩ := h e he
  rfl

theorem processFile_mkdir_err (cfg : Config) (oracle : Oracle) (root : Path) (fp : String)
    (i : Nat) (st st1 : St)
    (hm : mkdirParents st (parentOf (root ++ components fp)) = Except.error st1) :
    processFile cfg oracle root fp i st = Except.error st1 := by
  simp only [processFile, hm]

theorem processFile_dir (cfg : Config) (oracle : Oracle) (root : Path) (fp : String)
    (i : Nat) (st st1 : St)
    (hm : mkdirParents st (parentOf (root ++ components fp)) = Except.ok st1)
    (hf : Fs.find st1.fs (root ++ components fp) = some Entry.dir) :
    processFile cfg oracle root fp i st = Except.error st1 := by
  simp only [processFile, hm, hf]

theorem processFile_none (cfg : Config) (oracle : Oracle) (root : Path) (fp : String)
    (i : Nat) (st st1 : St)
    (hm : mkdirParents st (parentOf (root ++ components fp)) = Except.ok st1)
    (hf : Fs.find st1.fs (root ++ components fp) = none) :
    processFile cfg oracle root fp i st =
      generateAndWrite cfg oracle (root ++ components fp) fp i st1 "" := by
  simp only [processFile, hm, hf]

theorem processFile_file (cfg : Config) (oracle : Oracle) (root : Path) (fp : String)
    (i : Nat) (st st1 : St) (c : String)
    (hm : mkdirParents st (parentOf (root ++ components fp)) = Except.ok st1)
    (hf : Fs.find st1.fs (root ++ components fp) = some (Entry.file c)) :
    processFile cfg oracle root fp i st =
      generateAndWrite cfg oracle (root ++ components fp) fp i
        (emit st1 (Ev.fileRead (root ++ components fp))) c := by
  simp only [processFile, hm, hf]

theorem pf_evs_shape (cfg : Config) (oracle : Oracle) (root : Path) (fp : String) (i : Nat)
    (st : St) :
    ∃ Δ, (outSt (processFile cfg oracle root fp i st)).evs = st.evs ++ Δ ∧
      ∀ e ∈ Δ, isGitEv e = false := by
  obtain ⟨Δ1, h1, h2⟩ := mkdirAll_evs (prefixes (parentOf (root ++ components fp))) st
  cases hm : mkdirParents st (parentOf (root ++ components fp)) with
  | error st1 =>
    rw [processFile_mkdir_err cfg oracle root fp i st st1 hm]
    unfold mkdirParents at hm
    rw [hm] at h1
    exact ⟨Δ1, h1, mkdirAt_isGitEv_false Δ1 h2⟩
  | ok st1 =>
    have h1' : st1.evs = st.evs ++ Δ1 := by
      unfold mkdirParents at hm
      rw [hm] at h1
      exact h1
    cases hf : Fs.find st1.fs (root ++ components fp) with
    | none =>
      rw [processFile_none cfg oracle root fp i st st1 hm hf]
      obtain ⟨Δ2, g1, g2⟩ := gw_evs_shape cfg oracle (root ++ components fp) fp i st1 ""
      refine ⟨Δ1 ++ Δ2, ?_, ?_⟩
      · rw [g1, h1', List.append_assoc]
      · intro e he
        rcases List.mem_append.mp he with h | h
        · exact mkdirAt_isGitEv_false Δ1 h2 e h
        · exact g2 e h
    | some e0 =>
      cases e0 with
      | dir =>
        rw [processFile_dir cfg oracle root fp i st st1 hm hf]
        exact ⟨Δ1, h1', mkdirAt_isGitEv_false Δ1 h2⟩
      | file c =>
        rw [processFile_file cfg oracle root fp i st st1 c hm hf]
        obtain ⟨Δ2, g1, g2⟩ := gw_evs_shape cfg oracle (root ++ components fp) fp i
          (emit st1 (Ev.fileRead (root ++ components fp))) c
        refine ⟨(Δ1 ++ [Ev.fileRead (root ++ components fp)]) ++ Δ2, ?_, ?_⟩
        · rw [g1]
          simp only [emit, h1']
          simp [List.append_assoc]
        · intro e he
          rcases List.mem_append.mp he with h | h
          · rcases List.mem_append.mp h with h3 | h3
            · exact mkdirAt_isGitEv_false Δ1 h2 e h3
            · simp at h3
              subst h3
              rfl
          · exact g2 e h

theorem outSt_of_ok (x : Except St St) (st' : St) (h : x = Except.ok st') : outSt x = st' := by
  rw [h]
  rfl

theorem outSt_of_err (x : Except St St) (st' : St) (h : x = Except.error st') :
    outSt x = st' := by
  rw [h]
  rfl

theorem mkdirParents_evs (st : St) (p : Path) :
    ∃ Δ, (outSt (mkdirParents st p)).evs = st.evs ++ Δ ∧ ∀ e ∈ Δ, ∃ q, e = Ev.mkdirAt q :=
  mkdirAll_evs (prefixes p) st

theorem mkdirParents_fs_mono (st : St) (pp p : Path) (e : Entry)
    (h : Fs.find st.fs p = some e) : Fs.find (outSt (mkdirParents st pp)).fs p = some e :=
  mkdirAll_fs_mono (prefixes pp) st p e h

theorem mkdirParents_untouched (st : St) (pp p : Path) (hp : p ∉ prefixes pp) :
    Fs.find (outSt (mkdirParents st pp)).fs p = Fs.find st.fs p :=
  mkdirAll_untouched (prefixes pp) st p hp

theorem mkdirParents_fs_cases (st : St) (pp p : Path) :
    Fs.find (outSt (mkdirParents st pp)).fs p = Fs.find st.fs p ∨
      (Fs.find st.fs p = none ∧ Fs.find (outSt (mkdirParents st pp)).fs p = some Entry.dir) :=
  mkdirAll_fs_cases (prefixes pp) st p

theorem mkdir_evs_of_ok (st st1 : St) (pp : Path) (hm : mkdirParents st pp = Except.ok st1) :
    ∃ Δ, st1.evs = st.evs ++ Δ ∧ ∀ e ∈ Δ, ∃ q, e = Ev.mkdirAt q := by
  obtain ⟨Δ, h1, h2⟩ := mkdirParents_evs st pp
  rw [outSt_of_ok _ _ hm] at h1
  exact ⟨Δ, h1, h2⟩

theorem mkdir_evs_of_err (st st1 : St) (pp : Path)
    (hm : mkdirParents st pp = Except.error st1) :
    ∃ Δ, st1.evs = st.evs ++ Δ ∧ ∀ e ∈ Δ, ∃ q, e = Ev.mkdirAt q := by
  obtain ⟨Δ, h1, h2⟩ := mkdirParents_evs st pp
  rw [outSt_of_err _ _ hm] at h1
  exact ⟨Δ, h1, h2⟩

theorem mkdir_writesOf_of_ok (st st1 : St) (pp : Path)
    (hm : mkdirParents st pp = Except.ok st1) : writesOf st1.evs = writesOf st.evs := by
  obtain ⟨Δ, h1, h2⟩ := mkdir_evs_of_ok st st1 pp hm
  rw [h1, writesOf_append, writesOf_eq_nil Δ (mkdirAt_isWriteEv_false Δ h2), List.append_nil]

theorem mkdir_writesOf_of_err (st st1 : St) (pp : Path)
    (hm : mkdirParents st pp = Except.error st1) : writesOf st1.evs = writesOf st.evs := by
  obtain ⟨Δ, h1, h2⟩ := mkdir_evs_of_err st st1 pp hm
  rw [h1, writesOf_append, writesOf_eq_nil Δ (mkdirAt_isWriteEv_false Δ h2), List.append_nil]

theorem mkdirAt_prompts_nil (Δ : List Ev) (h : ∀ e ∈ Δ, ∃ q, e = Ev.mkdirAt q) :
    promptsOf Δ = [] := by
  refine promptsOf_eq_nil Δ ?_
  intro e he
  obtain ⟨q, rfl⟩ := h e he
  intro m p hh
  cases hh

theorem pf_writes_ok (cfg : Config) (oracle : Oracle) (root : Path) (fp : String) (i : Nat)
    (st st' : St) (h : processFile cfg oracle root fp i st = Except.ok st') :
    writesOf st'.evs = writesOf st.evs ++ [root ++ components fp] := by
  cases hm : mkdirParents st (parentOf (root ++ components fp)) with
  | error st1 =>
    rw [processFile_mkdir_err cfg oracle root fp i st st1 hm] at h
    exact Except.noConfusion h
  | ok st1 =>
    have hw1 := mkdir_writesOf_of_ok st st1 _ hm
    cases hf : Fs.find st1.fs (root ++ components fp) with
    | none =>
      rw [processFile_none cfg oracle root fp i st st1 hm hf] at h
      rw [gw_writes_ok cfg oracle _ fp i st1 st' "" h, hw1]
    | some e0 =>
      cases e0 with
      | dir =>
        rw [processFile_dir cfg oracle root fp i st st1 hm hf] at h
        exact Except.noConfusion h
      | file c =>
        rw [processFile_file cfg oracle root fp i st st1 c hm hf] at h
        rw [gw_writes_ok cfg oracle _ fp i _ st' c h]
        simp only [emit, writesOf_append]
        rw [hw1]
        simp [writesOf]

theorem pf_writes_err (cfg : Config) (oracle : Oracle) (root : Path) (fp : String) (i : Nat)
    (st st' : St) (h : processFile cfg oracle root fp i st = Except.error st') :
    writesOf st'.evs = writesOf st.evs := by
  cases hm : mkdirParents st (parentOf (root ++ components fp)) with
  | error st1 =>
    rw [processFile_mkdir_err cfg oracle root fp i st st1 hm] at h
    cases h
    exact mkdir_writesOf_of_err st st' _ hm
  | ok st1 =>
    have hw1 := mkdir_writesOf_of_ok st st1 _ hm
    cases hf : Fs.find st1.fs (root ++ components fp) with
    | none =>
      rw [processFile_none cfg oracle root fp i st st1 hm hf] at h
      rw [gw_writes_err cfg oracle _ fp i st1 st' "" h, hw1]
    | some e0 =>
      cases e0 with
      | dir =>
        rw [processFile_dir cfg oracle root fp i st st1 hm hf] at h
        cases h
        exact hw1
      | file c =>
        rw [processFile_file cfg oracle root fp i st st1 c hm hf] at h
        rw [gw_writes_err cfg oracle _ fp i _ st' c h]
        simp only [emit, writesOf_append]
        rw [hw1]
        simp [writesOf]

theorem pf_prompts_le (cfg : Config) (oracle : Oracle) (root : Path) (fp : String) (i : Nat)
    (st : St) :
    (promptsOf (outSt (processFile cfg oracle root fp i st)).evs).length ≤
      (promptsOf st.evs).length + 1 := by
  cases hm : mkdirParents st (parentOf (root ++ components fp)) with
  | error st1 =>
    rw [processFile_mkdir_err cfg oracle root fp i st st1 hm]
    obtain ⟨Δ, h1, h2⟩ := mkdir_evs_of_err st st1 _ hm
    simp only [outSt, h1, promptsOf_append, mkdirAt_prompts_nil Δ h2]
    simp
  | ok st1 =>
    obtain ⟨Δ, h1, h2⟩ := mkdir_evs_of_ok st st1 _ hm
    have hp1 : promptsOf st1.evs = promptsOf st.evs := by
      rw [h1, promptsOf_append, mkdirAt_prompts_nil Δ h2, List.append_nil]
    cases hf : Fs.find st1.fs (root ++ components fp) with
    | none =>
      rw [processFile_none cfg oracle root fp i st st1 hm hf]
      rw [gw_prompts cfg oracle _ fp i st1 "", hp1]
      simp
    | some e0 =>
      cases e0 with
      | dir =>
        rw [processFile_dir cfg oracle root fp i st st1 hm hf]
        simp only [outSt, hp1]
        simp
      | file c =>
        rw [processFile_file cfg oracle root fp i st st1 c hm hf]
        rw [gw_prompts cfg oracle _ fp i _ c]
        simp only [emit, promptsOf_append]
        rw [hp1]
        simp [promptsOf]

theorem pf_prompts_ok (cfg : Config) (oracle : Oracle) (root : Path) (fp : String) (i : Nat)
    (st st' : St) (hroot : root ≠ []) (h : processFile cfg oracle root fp i st = Except.ok st') :
    promptsOf st'.evs = promptsOf st.evs ++
      [buildPrompt cfg.projectType cfg.description fp
        (contentAt st.fs (root ++ components fp))] := by
  have hfullne : root ++ components fp ≠ [] := append_components_ne_nil root fp hroot
  cases hm : mkdirParents st (parentOf (root ++ components fp)) with
  | error st1 =>
    rw [processFile_mkdir_err cfg oracle root fp i st st1 hm] at h
    exact Except.noConfusion h
  | ok st1 =>
    obtain ⟨Δ, h1, h2⟩ := mkdir_evs_of_ok st st1 _ hm
    have hp1 : promptsOf st1.evs = promptsOf st.evs := by
      rw [h1, promptsOf_append, mkdirAt_prompts_nil Δ h2, List.append_nil]
    have hsame : Fs.find st1.fs (root ++ components fp) =
        Fs.find st.fs (root ++ components fp) := by
      have := mkdirParents_untouched st (parentOf (root ++ components fp))
        (root ++ components fp) (not_mem_prefixes_parent _ hfullne)
      rwa [outSt_of_ok _ _ hm] at this
    cases hf : Fs.find st1.fs (root ++ components fp) with
    | none =>
      rw [processFile_none cfg oracle root fp i st st1 hm hf] at h
      have := gw_prompts cfg oracle (root ++ components fp) fp i st1 ""
      rw [outSt_of_ok _ _ h] at this
      rw [this, hp1]
      have hc : contentAt st.fs (root ++ components fp) = "" := by
        unfold contentAt
        rw [← hsame, hf]
      rw [hc]
    | some e0 =>
      cases e0 with
      | dir =>
        rw [processFile_dir cfg oracle root fp i st st1 hm hf] at h
        exact Except.noConfusion h
      | file c =>
        rw [processFile_file cfg oracle root fp i st st1 c hm hf] at h
        have := gw_prompts cfg oracle (root ++ components fp) fp i
          (emit st1 (Ev.fileRead (root ++ components fp))) c
        rw [outSt_of_ok _ _ h] at this
        rw [this]
        simp only [emit, promptsOf_append]
        rw [hp1]
        have hc : contentAt st.fs (root ++ components fp) = c := by
          unfold contentAt
          rw [← hsame, hf]
        rw [hc]
        simp [promptsOf]

theorem pf_fs (cfg : Config) (oracle : Oracle) (root : Path) (fp : String) (i : Nat)
    (st : St) (p : Path) (e : Entry) (h : Fs.find st.fs p = some e) :
    Fs.find (outSt (processFile cfg oracle root fp i st)).fs p = some e ∨
      (p = root ++ components fp ∧
        ∃ c, Fs.find (outSt (processFile cfg oracle root fp i st)).fs p
          = some (Entry.file c)) := by
  cases hm : mkdirParents st (parentOf (root ++ components fp)) with
  | error st1 =>
    rw [processFile_mkdir_err cfg oracle root fp i st st1 hm]
    left
    have := mkdirParents_fs_mono st (parentOf (root ++ components fp)) p e h
    rwa [outSt_of_err _ _ hm] at this
  | ok st1 =>
    have h1 : Fs.find st1.fs p = some e := by
      have := mkdirParents_fs_mono st (parentOf (root ++ components fp)) p e h
      rwa [outSt_of_ok _ _ hm] at this
    cases hf : Fs.find st1.fs (root ++ components fp) with
    | none =>
      rw [processFile_none cfg oracle root fp i st st1 hm hf]
      exact gw_fs cfg oracle _ fp i st1 "" p e h1
    | some e0 =>
      cases e0 with
      | dir =>
        rw [processFile_dir cfg oracle root fp i st st1 hm hf]
        left
        exact h1
      | file c =>
        rw [processFile_file cfg oracle root fp i st st1 c hm hf]
        exact gw_fs cfg oracle _ fp i (emit st1 (Ev.fileRead (root ++ components fp))) c p e h1

theorem pf_WInv (cfg : Config) (oracle : Oracle) (root : Path) (fp : String) (i : Nat)
    (st : St) (hw : WInv st) : WInv (outSt (processFile cfg oracle root fp i st)) := by
  have mkdirW : ∀ st2 : St, ∀ x : Except St St, x = mkdirParents st (parentOf
      (root ++ components fp)) → outSt x = st2 → WInv st2 := by
    intro st2 x hx hout
    intro p c hlw
    obtain ⟨Δ, h1, h2⟩ := mkdirParents_evs st (parentOf (root ++ components fp))
    rw [← hx, hout] at h1
    rw [h1, lastWriteAt_no_write_ext _ _ _ (mkdirAt_isWriteEv_false Δ h2)] at hlw
    have := hw p c hlw
    have hmono := mkdirParents_fs_mono st (parentOf (root ++ components fp)) p
      (Entry.file c) this
    rw [← hx, hout] at hmono
    exact hmono
  cases hm : mkdirParents st (parentOf (root ++ components fp)) with
  | error st1 =>
    rw [processFile_mkdir_err cfg oracle root fp i st st1 hm]
    exact mkdirW st1 (Except.error st1) hm.symm rfl
  | ok st1 =>
    have hw1 : WInv st1 := mkdirW st1 (Except.ok st1) hm.symm rfl
    cases hf : Fs.find st1.fs (root ++ components fp) with
    | none =>
      rw [processFile_none cfg oracle root fp i st st1 hm hf]
      exact gw_WInv cfg oracle _ fp i st1 "" hw1
    | some e0 =>
      cases e0 with
      | dir =>
        rw [processFile_dir cfg oracle root fp i st st1 hm hf]
        exact hw1
      | file c =>
        rw [processFile_file cfg oracle root fp i st st1 c hm hf]
        refine gw_WInv cfg oracle _ fp i _ c ?_
        intro p c' hlw
        simp only [emit] at hlw ⊢
        rw [lastWriteAt_no_write_ext _ _ _ (by intro e he; simp at he; subst he; rfl)] at hlw
        exact hw1 p c' hlw

theorem pf_ok_content (cfg : Config) (oracle : Oracle) (root : Path) (fp : String) (i : Nat)
    (st st' : St) (chunks : List Chunk) (hs : oracle.stream i = Except.ok chunks)
    (h : processFile cfg oracle root fp i st = Except.ok st') :
    Fs.find st'.fs (root ++ components fp) = some (Entry.file (newContent chunks)) := by
  cases hm : mkdirParents st (parentOf (root ++ components fp)) with
  | error st1 =>
    rw [processFile_mkdir_err cfg oracle root fp i st st1 hm] at h
    exact Except.noConfusion h
  | ok st1 =>
    cases hf : Fs.find st1.fs (root ++ components fp) with
    | none =>
      rw [processFile_none cfg oracle root fp i st st1 hm hf] at h
      exact gw_ok_content cfg oracle _ fp i st1 st' "" chunks hs h
    | some e0 =>
      cases e0 with
      | dir =>
        rw [processFile_dir cfg oracle root fp i st st1 hm hf] at h
        exact Except.noConfusion h
      | file c =>
        rw [processFile_file cfg oracle root fp i st st1 c hm hf] at h
        exact gw_ok_content cfg oracle _ fp i _ st' c chunks hs h

theorem pf_err_of_stream (cfg : Config) (oracle : Oracle) (root : Path) (fp : String)
    (i : Nat) (st : St) (hs : oracle.stream i = Except.error ()) :
    ∃ st', processFile cfg oracle root fp i st = Except.error st' := by
  cases hm : mkdirParents st (parentOf (root ++ components fp)) with
  | error st1 => exact ⟨st1, processFile_mkdir_err cfg oracle root fp i st st1 hm⟩
  | ok st1 =>
    cases hf : Fs.find st1.fs (root ++ components fp) with
    | none =>
      refine ⟨emit st1 (Ev.apiRequest cfg.model
        (buildPrompt cfg.projectType cfg.description fp "")), ?_⟩
      rw [processFile_none cfg oracle root fp i st st1 hm hf]
      exact gw_err_of_stream cfg oracle _ fp i st1 "" hs
    | some e0 =>
      cases e0 with
      | dir => exact ⟨st1, processFile_dir cfg oracle root fp i st st1 hm hf⟩
      | file c =>
        refine ⟨emit (emit st1 (Ev.fileRead (root ++ components fp)))
          (Ev.apiRequest cfg.model (buildPrompt cfg.projectType cfg.description fp c)), ?_⟩
        rw [processFile_file cfg oracle root fp i st st1 c hm hf]
        exact gw_err_of_stream cfg oracle _ fp i _ c hs

/-! ## Lemmas about `processFiles` -/

theorem pfs_nil (cfg : Config) (oracle : Oracle) (root : Path) (i : Nat) (st : St) :
    processFiles cfg oracle root [] i st = Except.ok st := rfl

theorem pfs_cons_err (cfg : Config) (oracle : Oracle) (root : Path) (fp : String)
    (rest : List String) (i : Nat) (st st1 : St)
    (h : processFile cfg oracle root fp i st = Except.error st1) :
    processFiles cfg oracle root (fp :: rest) i st = Except.error st1 := by
  simp only [processFiles, h]

theorem pfs_cons_ok (cfg : Config) (oracle : Oracle) (root : Path) (fp : String)
    (rest : List String) (i : Nat) (st st1 : St)
    (h : processFile cfg oracle root fp i st = Except.ok st1) :
    processFiles cfg oracle root (fp :: rest) i st =
      processFiles cfg oracle root rest (i + 1) st1 := by
  simp only [processFiles, h]

theorem pfs_append (cfg : Config) (oracle : Oracle) (root : Path) (l1 l2 : List String)
    (i : Nat) (st : St) :
    processFiles cfg oracle root (l1 ++ l2) i st =
      match processFiles cfg oracle root l1 i st with
      | Except.error s => Except.error s
      | Except.ok s => processFiles cfg oracle root l2 (i + l1.length) s := by
  induction l1 generalizing i st with
  | nil => simp [pfs_nil]
  | cons fp l1 ih =>
    rw [List.cons_append]
    cases hp : processFile cfg oracle root fp i st with
    | error st1 =>
      rw [pfs_cons_err cfg oracle root fp (l1 ++ l2) i st st1 hp,
        pfs_cons_err cfg oracle root fp l1 i st st1 hp]
    | ok st1 =>
      rw [pfs_cons_ok cfg oracle root fp (l1 ++ l2) i st st1 hp,
        pfs_cons_ok cfg oracle root fp l1 i st st1 hp, ih (i + 1) st1]
      have harith : i + 1 + l1.length = i + (fp :: l1).length := by
        simp
        omega
      rw [harith]

theorem pfs_evs_shape (cfg : Config) (oracle : Oracle) (root : Path) (l : List String)
    (i : Nat) (st : St) :
    ∃ Δ, (outSt (processFiles cfg oracle root l i st)).evs = st.evs ++ Δ ∧
      ∀ e ∈ Δ, isGitEv e = false := by
  induction l generalizing i st with
  | nil => exact ⟨[], by simp [pfs_nil, outSt], by simp⟩
  | cons fp rest ih =>
    cases hp : processFile cfg oracle root fp i st with
    | error st1 =>
      obtain ⟨Δ, h1, h2⟩ := pf_evs_shape cfg oracle root fp i st
      rw [outSt_of_err _ _ hp] at h1
      rw [pfs_cons_err cfg oracle root fp rest i st st1 hp]
      exact ⟨Δ, h1, h2⟩
    | ok st1 =>
      obtain ⟨Δ1, h1, h2⟩ := pf_evs_shape cfg oracle root fp i st
      rw [outSt_of_ok _ _ hp] at h1
      obtain ⟨Δ2, g1, g2⟩ := ih (i + 1) st1
      rw [pfs_cons_ok cfg oracle root fp rest i st st1 hp]
      refine ⟨Δ1 ++ Δ2, ?_, ?_⟩
      · rw [g1, h1, List.append_assoc]
      · intro e he
        rcases List.mem_append.mp he with h | h
        · exact h2 e h
        · exact g2 e h

theorem resolvedPaths_cons (root : Path) (fp : String) (rest : List String) :
    resolvedPaths root (fp :: rest) = (root ++ components fp) :: resolvedPaths root rest := by
  simp [resolvedPaths]

theorem pfs_writes_ok (cfg : Config) (oracle : Oracle) (root : Path) (l : List String)
    (i : Nat) (st st' : St) (h : processFiles cfg oracle root l i st = Except.ok st') :
    writesOf st'.evs = writesOf st.evs ++ resolvedPaths root l := by
  induction l generalizing i st with
  | nil =>
    rw [pfs_nil] at h
    cases h
    simp [resolvedPaths]
  | cons fp rest ih =>
    cases hp : processFile cfg oracle root fp i st with
    | error st1 =>
      rw [pfs_cons_err cfg oracle root fp rest i st st1 hp] at h
      exact Except.noConfusion h
    | ok st1 =>
      rw [pfs_cons_ok cfg oracle root fp rest i st st1 hp] at h
      rw [ih (i + 1) st1 h, pf_writes_ok cfg oracle root fp i st st1 hp,
        resolvedPaths_cons, List.append_assoc]
      rfl

theorem pf_prompts_ok_ex (cfg : Config) (oracle : Oracle) (root : Path) (fp : String)
    (i : Nat) (st st' : St) (h : processFile cfg oracle root fp i st = Except.ok st') :
    ∃ pr, promptsOf st'.evs = promptsOf st.evs ++ [pr] := by
  cases hm : mkdirParents st (parentOf (root ++ components fp)) with
  | error st1 =>
    rw [processFile_mkdir_err cfg oracle root fp i st st1 hm] at h
    exact Except.noConfusion h
  | ok st1 =>
    obtain ⟨Δ, h1, h2⟩ := mkdir_evs_of_ok st st1 _ hm
    have hp1 : promptsOf st1.evs = promptsOf st.evs := by
      rw [h1, promptsOf_append, mkdirAt_prompts_nil Δ h2, List.append_nil]
    cases hf : Fs.find st1.fs (root ++ components fp) with
    | none =>
      rw [processFile_none cfg oracle root fp i st st1 hm hf] at h
      have := gw_prompts cfg oracle (root ++ components fp) fp i st1 ""
      rw [outSt_of_ok _ _ h] at this
      exact ⟨_, by rw [this, hp1]⟩
    | some e0 =>
      cases e0 with
      | dir =>
        rw [processFile_dir cfg oracle root fp i st st1 hm hf] at h
        exact Except.noConfusion h
      | file c =>
        rw [processFile_file cfg oracle root fp i st st1 c hm hf] at h
        have := gw_prompts cfg oracle (root ++ components fp) fp i
          (emit st1 (Ev.fileRead (root ++ components fp))) c
        rw [outSt_of_ok _ _ h] at this
        refine ⟨buildPrompt cfg.projectType cfg.description fp c, ?_⟩
        rw [this]
        simp only [emit, promptsOf_append]
        rw [hp1]
        simp [promptsOf]

theorem pfs_prompts_len_ok (cfg : Config) (oracle : Oracle) (root : Path) (l : List String)
    (i : Nat) (st st' : St) (h : processFiles cfg oracle root l i st = Except.ok st') :
    (promptsOf st'.evs).length = (promptsOf st.evs).length + l.length := by
  induction l generalizing i st with
  | nil =>
    rw [pfs_nil] at h
    cases h
    simp
  | cons fp rest ih =>
    cases hp : processFile cfg oracle root fp i st with
    | error st1 =>
      rw [pfs_cons_err cfg oracle root fp rest i st st1 hp] at h
      exact Except.noConfusion h
    | ok st1 =>
      rw [pfs_cons_ok cfg oracle root fp rest i st st1 hp] at h
      obtain ⟨pr, hpr⟩ := pf_prompts_ok_ex cfg oracle root fp i st st1 hp
      rw [ih (i + 1) st1 h, hpr]
      simp
      omega

theorem pfs_WInv (cfg : Config) (oracle : Oracle) (root : Path) (l : List String)
    (i : Nat) (st : St) (hw : WInv st) :
    WInv (outSt (processFiles cfg oracle root l i st)) := by
  induction l generalizing i st with
  | nil => simpa [pfs_nil, outSt]
  | cons fp rest ih =>
    cases hp : processFile cfg oracle root fp i st with
    | error st1 =>
      rw [pfs_cons_err cfg oracle root fp rest i st st1 hp]
      have := pf_WInv cfg oracle root fp i st hw
      rwa [outSt_of_err _ _ hp] at this
    | ok st1 =>
      rw [pfs_cons_ok cfg oracle root fp rest i st st1 hp]
      have hw1 : WInv st1 := by
        have := pf_WInv cfg oracle root fp i st hw
        rwa [outSt_of_ok _ _ hp] at this
      exact ih (i + 1) st1 hw1

theorem pfs_fs (cfg : Config) (oracle : Oracle) (root : Path) (l : List String)
    (i : Nat) (st : St) (p : Path) (e : Entry) (h : Fs.find st.fs p = some e) :
    Fs.find (outSt (processFiles cfg oracle root l i st)).fs p = some e ∨
      (p ∈ resolvedPaths root l ∧
        ∃ c, Fs.find (outSt (processFiles cfg oracle root l i st)).fs p
          = some (Entry.file c)) := by
  induction l generalizing i st e with
  | nil =>
    left
    simpa [pfs_nil, outSt]
  | cons fp rest ih =>
    cases hp : processFile cfg oracle root fp i st with
    | error st1 =>
      rw [pfs_cons_err cfg oracle root fp rest i st st1 hp]
      have hstep := pf_fs cfg oracle root fp i st p e h
      rw [outSt_of_err _ _ hp] at hstep
      rcases hstep with h1 | ⟨h1, c, h2⟩
      · left
        exact h1
      · right
        exact ⟨by rw [resolvedPaths_cons, h1]; exact List.mem_cons_self _ _, c, h2⟩
    | ok st1 =>
      rw [pfs_cons_ok cfg oracle root fp rest i st st1 hp]
      have hstep := pf_fs cfg oracle root fp i st p e h
      rw [outSt_of_ok _ _ hp] at hstep
      rcases hstep with h1 | ⟨h1, c, h2⟩
      · rcases ih (i + 1) st1 e h1 with g | ⟨g1, c', g2⟩
        · left
          exact g
        · right
          exact ⟨by rw [resolvedPaths_cons]; exact List.mem_cons_of_mem _ g1, c', g2⟩
      · rcases ih (i + 1) st1 (Entry.file c) h2 with g | ⟨g1, c', g2⟩
        · right
          exact ⟨by rw [resolvedPaths_cons, h1]; exact List.mem_cons_self _ _, c, g⟩
        · right
          exact ⟨by rw [resolvedPaths_cons]; exact List.mem_cons_of_mem _ g1, c', g2⟩

/-! ## Lemmas about setup, commit and the whole program -/

theorem setup_cases (oracle : Oracle) (root : Path) (fs0 : Fs) :
    (∃ c, Fs.find fs0 root = some (Entry.file c) ∧
      dirSetupAndInit oracle root fs0 =
        SetupResult.notADir ⟨fs0, [Ev.message (notADirMsg root)]⟩) ∨
    (Fs.find fs0 root = some Entry.dir ∧ (Fs.find fs0 (gitPath root)).isNone = false ∧
      dirSetupAndInit oracle root fs0 = SetupResult.proceed ⟨fs0, []⟩ false) ∨
    (Fs.find fs0 root = some Entry.dir ∧ (Fs.find fs0 (gitPath root)).isNone = true ∧
      oracle.initOk = true ∧
      dirSetupAndInit oracle root fs0 =
        SetupResult.proceed ⟨gitInitFs fs0 root, [Ev.gitInit]⟩ false) ∨
    (Fs.find fs0 root = some Entry.dir ∧ (Fs.find fs0 (gitPath root)).isNone = true ∧
      oracle.initOk = false ∧
      dirSetupAndInit oracle root fs0 = SetupResult.failed ⟨fs0, [Ev.gitInit]⟩) ∨
    (Fs.find fs0 root = none ∧ ∃ st1, mkdirAll ⟨fs0, []⟩ (prefixes root) = Except.error st1 ∧
      dirSetupAndInit oracle root fs0 = SetupResult.failed st1) ∨
    (Fs.find fs0 root = none ∧ ∃ st1, mkdirAll ⟨fs0, []⟩ (prefixes root) = Except.ok st1 ∧
      ((oracle.initOk = true ∧ dirSetupAndInit oracle root fs0 =
          SetupResult.proceed ⟨gitInitFs st1.fs root, st1.evs ++ [Ev.gitInit]⟩ true) ∨
        (oracle.initOk = false ∧ dirSetupAndInit oracle root fs0 =
          SetupResult.failed ⟨st1.fs, st1.evs ++ [Ev.gitInit]⟩))) := by
  cases hf : Fs.find fs0 root with
  | some e =>
    cases e with
    | file c =>
      left
      exact ⟨c, rfl, by simp [dirSetupAndInit, hf, emit]⟩
    | dir =>
      cases hg : (Fs.find fs0 (gitPath root)).isNone with
      | false =>
        right; left
        exact ⟨rfl, rfl, by simp [dirSetupAndInit, hf, ensureGit, hg]⟩
      | true =>
        cases hio : oracle.initOk with
        | true =>
          right; right; left
          exact ⟨rfl, rfl, rfl, by simp [dirSetupAndInit, hf, ensureGit, hg, hio, emit]⟩
        | false =>
          right; right; right; left
          exact ⟨rfl, rfl, rfl, by simp [dirSetupAndInit, hf, ensureGit, hg, hio, emit]⟩
  | none =>
    cases hmk : mkdirAll ⟨fs0, []⟩ (prefixes root) with
    | error st1 =>
      right; right; right; right; left
      refine ⟨rfl, st1, rfl, ?_⟩
      simp [dirSetupAndInit, hf, hmk]
    | ok st1 =>
      right; right; right; right; right
      refine ⟨rfl, st1, rfl, ?_⟩
      cases hio : oracle.initOk with
      | true =>
        left
        exact ⟨rfl, by simp [dirSetupAndInit, hf, hmk, ensureGit, hio, emit]⟩
      | false =>
        right
        exact ⟨rfl, by simp [dirSetupAndInit, hf, hmk, ensureGit, hio, emit]⟩

theorem setup_proceed_evs (oracle : Oracle) (root : Path) (fs0 : Fs) (st : St) (b : Bool)
    (h : dirSetupAndInit oracle root fs0 = SetupResult.proceed st b) :
    ∀ e ∈ st.evs, (∃ q, e = Ev.mkdirAt q) ∨ e = Ev.gitInit := by
  rcases setup_cases oracle root fs0 with
    ⟨c, _, heq⟩ | ⟨_, _, heq⟩ | ⟨_, _, _, heq⟩ | ⟨_, _, _, heq⟩ |
    ⟨_, st1, _, heq⟩ | ⟨_, st1, hmk, ⟨_, heq⟩ | ⟨_, heq⟩⟩ <;>
    rw [heq] at h <;> try exact SetupResult.noConfusion h
  · cases h
    intro e he
    cases he
  · cases h
    intro e he
    simp at he
    subst he
    right
    rfl
  · cases h
    intro e he
    obtain ⟨Δ, h1, h2⟩ := mkdirAll_evs (prefixes root) ⟨fs0, []⟩
    rw [outSt_of_ok _ _ hmk] at h1
    simp at h1
    rw [h1] at he
    rcases List.mem_append.mp he with hh | hh
    · left
      exact h2 e hh
    · simp at hh
      subst hh
      right
      rfl

theorem setup_proceed_fs_mono (oracle : Oracle) (root : Path) (fs0 : Fs) (st : St) (b : Bool)
    (h : dirSetupAndInit oracle root fs0 = SetupResult.proceed st b)
    (p : Path) (e : Entry) (hp : Fs.find fs0 p = some e) : Fs.find st.fs p = some e := by
  have gitInitFs_mono : ∀ fs : Fs, Fs.find fs p = some e →
      Fs.find (gitInitFs fs root) p = some e := by
    intro fs hfs
    unfold gitInitFs
    cases hgp : Fs.find fs (gitPath root) with
    | none =>
      rw [Fs.find_set]
      have : gitPath root ≠ p := fun hh => by rw [hh, hfs] at hgp; cases hgp
      simp [this, hfs]
    | some e2 => exact hfs
  rcases setup_cases oracle root fs0 with
    ⟨c, _, heq⟩ | ⟨_, _, heq⟩ | ⟨_, _, _, heq⟩ | ⟨_, _, _, heq⟩ |
    ⟨_, st1, _, heq⟩ | ⟨_, st1, hmk, ⟨_, heq⟩ | ⟨_, heq⟩⟩ <;>
    rw [heq] at h <;> try exact SetupResult.noConfusion h
  · cases h
    exact hp
  · cases h
    exact gitInitFs_mono fs0 hp
  · cases h
    have h1 : Fs.find st1.fs p = some e := by
      have := mkdirAll_fs_mono (prefixes root) ⟨fs0, []⟩ p e hp
      rwa [outSt_of_ok _ _ hmk] at this
    exact gitInitFs_mono st1.fs h1

theorem create_notADir (cfg : Config) (oracle : Oracle) (root : Path) (fs0 : Fs) (st : St)
    (h : dirSetupAndInit oracle root fs0 = SetupResult.notADir st) :
    create_or_modify_project cfg oracle root fs0 = (st, false) := by
  simp [create_or_modify_project, h]

theorem create_failed (cfg : Config) (oracle : Oracle) (root : Path) (fs0 : Fs) (st : St)
    (h : dirSetupAndInit oracle root fs0 = SetupResult.failed st) :
    create_or_modify_project cfg oracle root fs0 = (st, true) := by
  simp [create_or_modify_project, h]

theorem create_proceed_err (cfg : Config) (oracle : Oracle) (root : Path) (fs0 : Fs)
    (st st1 : St) (b : Bool)
    (hs : dirSetupAndInit oracle root fs0 = SetupResult.proceed st b)
    (hp : processFiles cfg oracle root cfg.files 0 st = Except.error st1) :
    create_or_modify_project cfg oracle root fs0 = (st1, true) := by
  simp [create_or_modify_project, hs, hp]

theorem create_proceed_ok (cfg : Config) (oracle : Oracle) (root : Path) (fs0 : Fs)
    (st st1 : St) (b : Bool)
    (hs : dirSetupAndInit oracle root fs0 = SetupResult.proceed st b)
    (hp : processFiles cfg oracle root cfg.files 0 st = Except.ok st1) :
    create_or_modify_project cfg oracle root fs0 = finalizeCommit cfg oracle st1 := by
  simp [create_or_modify_project, hs, hp]

theorem fin_add_fail (cfg : Config) (oracle : Oracle) (st : St) (ha : oracle.addOk = false) :
    finalizeCommit cfg oracle st = (emit st Ev.gitAdd, true) := by
  simp [finalizeCommit, ha]

theorem fin_add_ok (cfg : Config) (oracle : Oracle) (st : St) (ha : oracle.addOk = true) :
    finalizeCommit cfg oracle st =
      (⟨st.fs, st.evs ++ [Ev.gitAdd, Ev.gitCommit cfg.commitMessage]⟩, !oracle.commitOk) := by
  simp [finalizeCommit, ha, emit]

theorem program_none (cfg : Config) (oracle : Oracle) (root : Path) (fs0 : Fs) :
    program none cfg oracle root fs0 = (fs0, [Ev.message keyErrMsg], 1) := rfl

theorem program_some (k : String) (cfg : Config) (oracle : Oracle) (root : Path) (fs0 : Fs)
    (hk : k ≠ "") :
    program (some k) cfg oracle root fs0 =
      ((create_or_modify_project cfg oracle root fs0).1.fs,
        (create_or_modify_project cfg oracle root fs0).1.evs,
        if (create_or_modify_project cfg oracle root fs0).2 then 1 else 0) := by
  simp [program, hk]

/-! ## Refinement of the accumulation and of the prompt against the spec's words -/

theorem fragmentsSpec_cons (c : Chunk) (cs : List Chunk) :
    fragmentsSpec (c :: cs) =
      match chunkContent c with
      | some s => s :: fragmentsSpec cs
      | none => fragmentsSpec cs := by
  cases hc : chunkContent c <;> simp [fragmentsSpec, List.filterMap_cons, hc]

theorem newContent_go (chunks : List Chunk) (acc : String) :
    chunks.foldl ncStep acc = acc ++ concatAll (fragmentsSpec chunks) := by
  induction chunks generalizing acc with
  | nil => simp [fragmentsSpec, concatAll, String.append_empty]
  | cons c cs ih =>
    rw [List.foldl_cons, fragmentsSpec_cons]
    cases hc : chunkContent c with
    | none =>
      simp only [ncStep, hc]
      exact ih acc
    | some s =>
      simp only [ncStep, hc]
      by_cases hs : s = ""
      · subst hs
        rw [if_pos rfl, ih acc, concatAll_cons, String.empty_append]
      · rw [if_neg hs, ih (acc ++ s), concatAll_cons, String.append_assoc]

theorem newContent_eq_concat (chunks : List Chunk) :
    newContent chunks = concatAll (fragmentsSpec chunks) := by
  rw [newContent, newContent_go, String.empty_append]

theorem buildPrompt_eq_spec (t d f c : String) :
    buildPrompt t d f c =
      if c = "" then specCreatePrompt t d f else specModifyPrompt t d f c := by
  by_cases h : c = ""
  · subst h
    rw [if_pos rfl]
    unfold buildPrompt promptAction specCreatePrompt
    rw [if_pos rfl, if_pos rfl]
    simp only [String.append_assoc]
    rfl
  · rw [if_neg h]
    unfold buildPrompt promptAction specModifyPrompt
    rw [if_neg h, if_neg h]
    simp only [String.append_assoc]
    rfl

/-! ## Claim-level helper theorems -/

theorem setup_proceed_trace_props (oracle : Oracle) (root : Path) (fs0 : Fs) (st : St)
    (b : Bool) (h : dirSetupAndInit oracle root fs0 = SetupResult.proceed st b) :
    writesOf st.evs = [] ∧ commitsOf st.evs = [] ∧ Ev.gitAdd ∉ st.evs ∧
      promptsOf st.evs = [] ∧ ∀ p, lastWriteAt st.evs p = none := by
  have hshape := setup_proceed_evs oracle root fs0 st b h
  have hnw : ∀ e ∈ st.evs, isWriteEv e = false := by
    intro e he
    rcases hshape e he with ⟨q, rfl⟩ | rfl <;> rfl
  refine ⟨writesOf_eq_nil _ hnw, ?_, ?_, ?_, ?_⟩
  · refine commitsOf_eq_nil_no_commit _ ?_
    intro e he m
    rcases hshape e he with ⟨q, rfl⟩ | rfl <;> intro hh <;> cases hh
  · intro hmem
    rcases hshape _ hmem with ⟨q, hq⟩ | hq <;> cases hq
  · refine promptsOf_eq_nil _ ?_
    intro e he m p
    rcases hshape e he with ⟨q, rfl⟩ | rfl <;> intro hh <;> cases hh
  · intro p
    exact foldl_writeStep_no_write p st.evs none hnw

theorem run_exit_zero_shape (k : String) (cfg : Config) (oracle : Oracle) (root : Path)
    (fs0 : Fs) (st : St) (b : Bool) (hk : k ≠ "")
    (hsetup : dirSetupAndInit oracle root fs0 = SetupResult.proceed st b)
    (hz : (program (some k) cfg oracle root fs0).2.2 = 0) :
    ∃ st1, processFiles cfg oracle root cfg.files 0 st = Except.ok st1 ∧
      oracle.addOk = true ∧ oracle.commitOk = true ∧
      (program (some k) cfg oracle root fs0).2.1 =
        st1.evs ++ [Ev.gitAdd, Ev.gitCommit cfg.commitMessage] ∧
      (program (some k) cfg oracle root fs0).1 = st1.fs := by
  rw [program_some k cfg oracle root fs0 hk] at hz ⊢
  cases hpfs : processFiles cfg oracle root cfg.files 0 st with
  | error st1 =>
    rw [create_proceed_err cfg oracle root fs0 st st1 b hsetup hpfs] at hz
    simp at hz
  | ok st1 =>
    rw [create_proceed_ok cfg oracle root fs0 st st1 b hsetup hpfs] at hz ⊢
    cases ha : oracle.addOk with
    | false =>
      rw [fin_add_fail cfg oracle st1 ha] at hz
      simp at hz
    | true =>
      rw [fin_add_ok cfg oracle st1 ha] at hz ⊢
      cases hc : oracle.commitOk with
      | false =>
        rw [hc] at hz
        simp at hz
      | true => exact ⟨st1, rfl, rfl, rfl, rfl, rfl⟩

theorem create_gitInit_count (cfg : Config) (oracle : Oracle) (root : Path) (fs0 : Fs)
    (st : St) (b : Bool) (hsetup : dirSetupAndInit oracle root fs0 = SetupResult.proceed st b) :
    ((create_or_modify_project cfg oracle root fs0).1.evs).count Ev.gitInit =
      st.evs.count Ev.gitInit := by
  cases hpfs : processFiles cfg oracle root cfg.files 0 st with
  | error st1 =>
    rw [create_proceed_err cfg oracle root fs0 st st1 b hsetup hpfs]
    obtain ⟨Δ, h1, h2⟩ := pfs_evs_shape cfg oracle root cfg.files 0 st
    rw [outSt_of_err _ _ hpfs] at h1
    simp only [h1, List.count_append]
    rw [count_eq_zero_of_isGitEv_false Δ Ev.gitInit rfl h2]
    simp
  | ok st1 =>
    rw [create_proceed_ok cfg oracle root fs0 st st1 b hsetup hpfs]
    obtain ⟨Δ, h1, h2⟩ := pfs_evs_shape cfg oracle root cfg.files 0 st
    rw [outSt_of_ok _ _ hpfs] at h1
    cases ha : oracle.addOk with
    | false =>
      rw [fin_add_fail cfg oracle st1 ha]
      simp only [emit, h1, List.count_append]
      rw [count_eq_zero_of_isGitEv_false Δ Ev.gitInit rfl h2]
      simp [List.count_singleton]
    | true =>
      rw [fin_add_ok cfg oracle st1 ha]
      simp only [h1, List.count_append]
      rw [count_eq_zero_of_isGitEv_false Δ Ev.gitInit rfl h2]
      have hz : List.count Ev.gitInit [Ev.gitAdd, Ev.gitCommit cfg.commitMessage] = 0 := rfl
      omega

theorem create_fs_frame (cfg : Config) (oracle : Oracle) (root : Path) (fs0 : Fs)
    (p : Path) (e : Entry) (h : Fs.find fs0 p = some e) :
    Fs.find (create_or_modify_project cfg oracle root fs0).1.fs p = some e ∨
      (p ∈ resolvedPaths root cfg.files ∧
        ∃ c, Fs.find (create_or_modify_project cfg oracle root fs0).1.fs p
          = some (Entry.file c)) := by
  have gitInitFs_mono : ∀ fs : Fs, Fs.find fs p = some e →
      Fs.find (gitInitFs fs root) p = some e := by
    intro fs hfs
    unfold gitInitFs
    cases hgp : Fs.find fs (gitPath root) with
    | none =>
      rw [Fs.find_set]
      have : gitPath root ≠ p := fun hh => by rw [hh, hfs] at hgp; cases hgp
      simp [this, hfs]
    | some e2 => exact hfs
  rcases setup_cases oracle root fs0 with
    ⟨c, hfe, heq⟩ | ⟨_, _, heq⟩ | ⟨_, _, _, heq⟩ | ⟨_, _, _, heq⟩ |
    ⟨_, st1, hmk, heq⟩ | ⟨_, st1, hmk, ⟨_, heq⟩ | ⟨_, heq⟩⟩
  · rw [create_notADir cfg oracle root fs0 _ heq]
    left
    exact h
  case _ heq =>
    have hmono := setup_proceed_fs_mono oracle root fs0 _ _ heq p e h
    cases hpfs : processFiles cfg oracle root cfg.files 0 ⟨fs0, []⟩ with
    | error stE =>
      rw [create_proceed_err cfg oracle root fs0 _ stE _ heq hpfs]
      have := pfs_fs cfg oracle root cfg.files 0 ⟨fs0, []⟩ p e hmono
      rwa [outSt_of_err _ _ hpfs] at this
    | ok stO =>
      rw [create_proceed_ok cfg oracle root fs0 _ stO _ heq hpfs]
      have hfin := pfs_fs cfg oracle root cfg.files 0 ⟨fs0, []⟩ p e hmono
      rw [outSt_of_ok _ _ hpfs] at hfin
      cases ha : oracle.addOk with
      | false =>
        rw [fin_add_fail cfg oracle stO ha]
        simpa [emit] using hfin
      | true =>
        rw [fin_add_ok cfg oracle stO ha]
        simpa using hfin
  case _ heq =>
    have hmono := setup_proceed_fs_mono oracle root fs0 _ _ heq p e h
    cases hpfs : processFiles cfg oracle root cfg.files 0
        ⟨gitInitFs fs0 root, [Ev.gitInit]⟩ with
    | error stE =>
      rw [create_proceed_err cfg oracle root fs0 _ stE _ heq hpfs]
      have := pfs_fs cfg oracle root cfg.files 0 ⟨gitInitFs fs0 root, [Ev.gitInit]⟩ p e hmono
      rwa [outSt_of_err _ _ hpfs] at this
    | ok stO =>
      rw [create_proceed_ok cfg oracle root fs0 _ stO _ heq hpfs]
      have hfin := pfs_fs cfg oracle root cfg.files 0 ⟨gitInitFs fs0 root, [Ev.gitInit]⟩ p e
        hmono
      rw [outSt_of_ok _ _ hpfs] at hfin
      cases ha : oracle.addOk with
      | false =>
        rw [fin_add_fail cfg oracle stO ha]
        simpa [emit] using hfin
      | true =>
        rw [fin_add_ok cfg oracle stO ha]
        simpa using hfin
  case _ heq =>
    rw [create_failed cfg oracle root fs0 _ heq]
    left
    exact h
  case _ heq =>
    rw [create_failed cfg oracle root fs0 _ heq]
    left
    have := mkdirAll_fs_mono (prefixes root) ⟨fs0, []⟩ p e h
    rwa [outSt_of_err _ _ hmk] at this
  case _ heq =>
    have hmono := setup_proceed_fs_mono oracle root fs0 _ _ heq p e h
    cases hpfs : processFiles cfg oracle root cfg.files 0
        ⟨gitInitFs st1.fs root, st1.evs ++ [Ev.gitInit]⟩ with
    | error stE =>
      rw [create_proceed_err cfg oracle root fs0 _ stE _ heq hpfs]
      have := pfs_fs cfg oracle root cfg.files 0
        ⟨gitInitFs st1.fs root, st1.evs ++ [Ev.gitInit]⟩ p e hmono
      rwa [outSt_of_err _ _ hpfs] at this
    | ok stO =>
      rw [create_proceed_ok cfg oracle root fs0 _ stO _ heq hpfs]
      have hfin := pfs_fs cfg oracle root cfg.files 0
        ⟨gitInitFs st1.fs root, st1.evs ++ [Ev.gitInit]⟩ p e hmono
      rw [outSt_of_ok _ _ hpfs] at hfin
      cases ha : oracle.addOk with
      | false =>
        rw [fin_add_fail cfg oracle stO ha]
        simpa [emit] using hfin
      | true =>
        rw [fin_add_ok cfg oracle stO ha]
        simpa using hfin
  case _ heq =>
    rw [create_failed cfg oracle root fs0 _ heq]
    left
    have := mkdirAll_fs_mono (prefixes root) ⟨fs0, []⟩ p e h
    rwa [outSt_of_ok _ _ hmk] at this

theorem root_mem_prefixes (root : Path) (hroot : root ≠ []) : root ∈ prefixes root := by
  simp only [prefixes, List.mem_map, List.mem_range]
  have hl : 0 < root.length := List.length_pos.mpr hroot
  refine ⟨root.length - 1, by omega, ?_⟩
  have : root.length - 1 + 1 = root.length := by omega
  rw [this, List.take_length]

theorem gitPath_not_mem_prefixes (root : Path) : gitPath root ∉ prefixes root := by
  intro h
  have h1 := prefixes_length_le root (gitPath root) h
  simp [gitPath] at h1

/-! ## Concrete sample data used by witnesses -/

/-- A sample invocation configuration. -/
def sampleCfg : Config :=
  ⟨"python", "a single hello-world script", ["main.py"], "init", "gpt-4-turbo-preview"⟩

/-- A sample environment whose streams are all empty and whose git calls succeed. -/
def sampleOracle : Oracle := ⟨fun _ => Except.ok [], true, true, true⟩

/-- Sample streamed chunks: ordinary text, a chunk without choices, more text,
a chunk with an empty choices array, and a chunk whose delta has no content. -/
def sampleChunks : List Chunk :=
  [⟨some [⟨some ⟨some "print(1)"⟩⟩]⟩, ⟨none⟩, ⟨some [⟨some ⟨some "\nprint(2)\n"⟩⟩]⟩,
    ⟨some []⟩, ⟨some [⟨some ⟨none⟩⟩]⟩]

/-- A sample environment streaming `sampleChunks` for every file. -/
def chunkOracle : Oracle := ⟨fun _ => Except.ok sampleChunks, true, true, true⟩

/-! ## The claims -/

/-- C6: for every invocation with the API-key credential unset in the
environment, the process terminates immediately with exit status 1; the
filesystem is unchanged and the trace holds only the diagnostic message —
no directory creation, file write, model request, or git event. -/
theorem c6_missing_credential (cfg : Config) (oracle : Oracle) (root : Path) (fs0 : Fs) :
    program none cfg oracle root fs0 = (fs0, [Ev.message keyErrMsg], 1) := rfl

/-- C5: for every invocation whose target path exists as a regular file, the
run leaves the filesystem exactly as it was and its whole trace is the single
error message — no directory is created, no file is read or written, and no
version-control command runs. -/
theorem c5_target_file_aborts (k : String) (cfg : Config) (oracle : Oracle) (root : Path)
    (fs0 : Fs) (c : String) (hk : k ≠ "")
    (hf : Fs.find fs0 root = some (Entry.file c)) :
    (program (some k) cfg oracle root fs0).1 = fs0 ∧
    (program (some k) cfg oracle root fs0).2.1 = [Ev.message (notADirMsg root)] := by
  have hset : dirSetupAndInit oracle root fs0 =
      SetupResult.notADir ⟨fs0, [Ev.message (notADirMsg root)]⟩ := by
    simp [dirSetupAndInit, hf, emit]
  rw [program_some k cfg oracle root fs0 hk, create_notADir cfg oracle root fs0 _ hset]
  exact ⟨rfl, rfl⟩

/-- Witness for C5 at a concrete target that is a regular file. -/
theorem c5_target_file_aborts_witness :
    (program (some "sk-key") sampleCfg sampleOracle ["home", "proj"]
      [(["home", "proj"], Entry.file "data")]).1 = [(["home", "proj"], Entry.file "data")] ∧
    (program (some "sk-key") sampleCfg sampleOracle ["home", "proj"]
      [(["home", "proj"], Entry.file "data")]).2.1 =
      [Ev.message (notADirMsg ["home", "proj"])] :=
  c5_target_file_aborts "sk-key" sampleCfg sampleOracle ["home", "proj"]
    [(["home", "proj"], Entry.file "data")] "data" (by decide) rfl

/-- C9: when the target path exists but is not a directory, the function
returns normally after recording the error message, so the process exit
status is 0 despite the reported error. -/
theorem c9_not_dir_exit_zero (k : String) (cfg : Config) (oracle : Oracle) (root : Path)
    (fs0 : Fs) (c : String) (hk : k ≠ "")
    (hf : Fs.find fs0 root = some (Entry.file c)) :
    (program (some k) cfg oracle root fs0).2.2 = 0 ∧
    Ev.message (notADirMsg root) ∈ (program (some k) cfg oracle root fs0).2.1 := by
  have hset : dirSetupAndInit oracle root fs0 =
      SetupResult.notADir ⟨fs0, [Ev.message (notADirMsg root)]⟩ := by
    simp [dirSetupAndInit, hf, emit]
  rw [program_some k cfg oracle root fs0 hk, create_notADir cfg oracle root fs0 _ hset]
  exact ⟨rfl, by simp⟩

/-- Witness for C9 at a concrete target that is a regular file. -/
theorem c9_not_dir_exit_zero_witness :
    (program (some "k9") sampleCfg sampleOracle ["a"] [(["a"], Entry.file "x")]).2.2 = 0 ∧
    Ev.message (notADirMsg ["a"]) ∈
      (program (some "k9") sampleCfg sampleOracle ["a"] [(["a"], Entry.file "x")]).2.1 :=
  c9_not_dir_exit_zero "k9" sampleCfg sampleOracle ["a"] [(["a"], Entry.file "x")] "x"
    (by decide) rfl

/-- C2: after a file task completes, the target file's entire contents equal
the concatenation, in arrival order, of all text fragments of the streamed
response (full replacement; an empty model output leaves an empty file, since
the concatenation of no fragments is the empty string). -/
theorem c2_full_overwrite (cfg : Config) (oracle : Oracle) (root : Path) (fp : String)
    (i : Nat) (st st' : St) (chunks : List Chunk)
    (h : processFile cfg oracle root fp i st = Except.ok st')
    (hs : oracle.stream i = Except.ok chunks) :
    Fs.find st'.fs (root ++ components fp) =
      some (Entry.file (concatAll (fragmentsSpec chunks))) := by
  rw [← newContent_eq_concat]
  exact pf_ok_content cfg oracle root fp i st st' chunks hs h

/-- Witness for C2 on a concrete streamed response. -/
theorem c2_full_overwrite_witness :
    Fs.find (outSt (processFile sampleCfg chunkOracle ["p"] "main.py" 0
        ⟨[(["p"], Entry.dir)], []⟩)).fs (["p"] ++ components "main.py") =
      some (Entry.file (concatAll (fragmentsSpec sampleChunks))) :=
  c2_full_overwrite sampleCfg chunkOracle ["p"] "main.py" 0 ⟨[(["p"], Entry.dir)], []⟩ _
    sampleChunks (by rfl) (by rfl)

/-- C1 counterexample: a file that exists on disk with empty content. The
claim says the prompt signals modify exactly when the file existed, but here
the file exists and the emitted prompt is the create-form prompt (which is
not the modify-form prompt): the verb follows content emptiness, not
existence. -/
theorem c1_counterexample :
    Fs.find [(["p"], Entry.dir), (["p", "main.py"], Entry.file "")]
        (["p"] ++ components "main.py") = some (Entry.file "") ∧
    promptsOf (outSt (processFile sampleCfg sampleOracle ["p"] "main.py" 0
        ⟨[(["p"], Entry.dir), (["p", "main.py"], Entry.file "")], []⟩)).evs =
      [specCreatePrompt "python" "a single hello-world script" "main.py"] ∧
    specCreatePrompt "python" "a single hello-world script" "main.py" ≠
      specModifyPrompt "python" "a single hello-world script" "main.py" "" := by
  refine ⟨by rfl, by rfl, by decide⟩

/-- C1 (amended): for every file task, the emitted prompt is the create-form
prompt (no prior content) exactly when the prior content is empty — whether
because the file was absent or because it was empty — and otherwise the
modify-form prompt carrying the prior content verbatim. -/
theorem c1_amended_prompt (cfg : Config) (oracle : Oracle) (root : Path) (fp : String)
    (i : Nat) (st st' : St) (hroot : root ≠ [])
    (h : processFile cfg oracle root fp i st = Except.ok st') :
    promptsOf st'.evs = promptsOf st.evs ++
      [if contentAt st.fs (root ++ components fp) = ""
       then specCreatePrompt cfg.projectType cfg.description fp
       else specModifyPrompt cfg.projectType cfg.description fp
         (contentAt st.fs (root ++ components fp))] := by
  rw [pf_prompts_ok cfg oracle root fp i st st' hroot h, buildPrompt_eq_spec]

/-- Witness for the amended C1 on a concrete pre-existing nonempty file. -/
theorem c1_amended_prompt_witness :
    promptsOf (outSt (processFile sampleCfg sampleOracle ["p"] "main.py" 0
        ⟨[(["p"], Entry.dir), (["p", "main.py"], Entry.file "old code")], []⟩)).evs =
      promptsOf (⟨[(["p"], Entry.dir), (["p", "main.py"], Entry.file "old code")], []⟩ :
        St).evs ++
      [if contentAt [(["p"], Entry.dir), (["p", "main.py"], Entry.file "old code")]
          (["p"] ++ components "main.py") = ""
       then specCreatePrompt "python" "a single hello-world script" "main.py"
       else specModifyPrompt "python" "a single hello-world script" "main.py"
         (contentAt [(["p"], Entry.dir), (["p", "main.py"], Entry.file "old code")]
           (["p"] ++ components "main.py"))] :=
  c1_amended_prompt sampleCfg sampleOracle ["p"] "main.py" 0
    ⟨[(["p"], Entry.dir), (["p", "main.py"], Entry.file "old code")], []⟩ _
    (by decide) (by rfl)

/-- C3: on every completed run (credential set, target not an existing
regular file, exit status 0) with a non-empty file list, the trace ends with
exactly one `git add` followed by exactly one `git commit` carrying the
supplied message, after all file writes; the written paths before the commit
are exactly the listed files, resolved in command-line order; no other
commit or staging event occurs. -/
theorem c3_order_single_commit (k : String) (cfg : Config) (oracle : Oracle) (root : Path)
    (fs0 : Fs) (hk : k ≠ "") (_hne : cfg.files ≠ [])
    (hnf : ∀ c, Fs.find fs0 root ≠ some (Entry.file c))
    (hz : (program (some k) cfg oracle root fs0).2.2 = 0) :
    ∃ pre, (program (some k) cfg oracle root fs0).2.1
        = pre ++ [Ev.gitAdd, Ev.gitCommit cfg.commitMessage] ∧
      writesOf pre = resolvedPaths root cfg.files ∧
      commitsOf pre = [] ∧ Ev.gitAdd ∉ pre := by
  have main : ∀ (st : St) (b : Bool),
      dirSetupAndInit oracle root fs0 = SetupResult.proceed st b →
      ∃ pre, (program (some k) cfg oracle root fs0).2.1
          = pre ++ [Ev.gitAdd, Ev.gitCommit cfg.commitMessage] ∧
        writesOf pre = resolvedPaths root cfg.files ∧
        commitsOf pre = [] ∧ Ev.gitAdd ∉ pre := by
    intro st b hsetup
    obtain ⟨st1, hpfs, ha, hc, htr, hfs⟩ :=
      run_exit_zero_shape k cfg oracle root fs0 st b hk hsetup hz
    obtain ⟨hw0, hc0, ha0, hp0, hl0⟩ := setup_proceed_trace_props oracle root fs0 st b hsetup
    obtain ⟨Δ, h1, h2⟩ := pfs_evs_shape cfg oracle root cfg.files 0 st
    rw [outSt_of_ok _ _ hpfs] at h1
    refine ⟨st1.evs, htr, ?_, ?_, ?_⟩
    · rw [pfs_writes_ok cfg oracle root cfg.files 0 st st1 hpfs, hw0, List.nil_append]
    · rw [h1, commitsOf_append, hc0, commitsOf_eq_nil Δ h2]
      rfl
    · intro hmem
      rw [h1] at hmem
      rcases List.mem_append.mp hmem with hh | hh
      · exact ha0 hh
      · exact Bool.noConfusion (h2 _ hh)
  rcases setup_cases oracle root fs0 with
    ⟨c, hfe, heq⟩ | ⟨_, _, heq⟩ | ⟨_, _, _, heq⟩ | ⟨_, _, _, heq⟩ |
    ⟨_, st1, hmk, heq⟩ | ⟨_, st1, hmk, ⟨_, heq⟩ | ⟨_, heq⟩⟩
  · exact absurd hfe (hnf c)
  · exact main _ _ heq
  · exact main _ _ heq
  · rw [program_some k cfg oracle root fs0 hk,
      create_failed cfg oracle root fs0 _ heq] at hz
    simp at hz
  · rw [program_some k cfg oracle root fs0 hk,
      create_failed cfg oracle root fs0 _ heq] at hz
    simp at hz
  · exact main _ _ heq
  · rw [program_some k cfg oracle root fs0 hk,
      create_failed cfg oracle root fs0 _ heq] at hz
    simp at hz

/-- A two-file configuration used by the C3 witness. -/
def c3Cfg : Config := ⟨"python", "two files", ["a.py", "b.py"], "add files", "gpt-4"⟩

/-- Witness for C3 on a concrete two-file run over an existing repository. -/
theorem c3_order_single_commit_witness :
    ∃ pre, (program (some "k") c3Cfg chunkOracle ["w"]
        [(["w"], Entry.dir), (["w", ".git"], Entry.dir)]).2.1
        = pre ++ [Ev.gitAdd, Ev.gitCommit c3Cfg.commitMessage] ∧
      writesOf pre = resolvedPaths ["w"] c3Cfg.files ∧
      commitsOf pre = [] ∧ Ev.gitAdd ∉ pre :=
  c3_order_single_commit "k" c3Cfg chunkOracle ["w"]
    [(["w"], Entry.dir), (["w", ".git"], Entry.dir)] (by decide) (by decide)
    (fun c h => Entry.noConfusion (Option.some.inj h)) (by rfl)

/-- C4: repository initialization is idempotent — under the credential being
set and the target being a directory (or absent with a creatable ancestor
chain), the trace holds exactly one `git init` event when the directory was
newly created or lacked a `.git` entry, and none otherwise. -/
theorem c4_init_idempotent (k : String) (cfg : Config) (oracle : Oracle) (root : Path)
    (fs0 : Fs) (hk : k ≠ "")
    (hroot : Fs.find fs0 root = some Entry.dir ∨
      (Fs.find fs0 root = none ∧
        ∀ q ∈ prefixes root, ∀ c, Fs.find fs0 q ≠ some (Entry.file c))) :
    ((program (some k) cfg oracle root fs0).2.1).count Ev.gitInit =
      if Fs.find fs0 root = none ∨ Fs.find fs0 (gitPath root) = none then 1 else 0 := by
  rw [program_some k cfg oracle root fs0 hk]
  rcases setup_cases oracle root fs0 with
    ⟨c, hfe, heq⟩ | ⟨hd, hg, heq⟩ | ⟨hd, hg, hio, heq⟩ | ⟨hd, hg, hio, heq⟩ |
    ⟨hn, st1, hmk, heq⟩ | ⟨hn, st1, hmk, ⟨hio, heq⟩ | ⟨hio, heq⟩⟩
  · rcases hroot with h | ⟨h, _⟩ <;> rw [h] at hfe <;> simp at hfe
  · rw [create_gitInit_count cfg oracle root fs0 _ _ heq]
    have h1 : ¬(Fs.find fs0 root = none ∨ Fs.find fs0 (gitPath root) = none) := by
      rintro (h | h)
      · rw [hd] at h
        cases h
      · rw [h] at hg
        simp at hg
    rw [if_neg h1]
    rfl
  · rw [create_gitInit_count cfg oracle root fs0 _ _ heq]
    rw [if_pos (Or.inr (Option.isNone_iff_eq_none.mp hg))]
    rfl
  · rw [create_failed cfg oracle root fs0 _ heq]
    rw [if_pos (Or.inr (Option.isNone_iff_eq_none.mp hg))]
    rfl
  · rcases hroot with h | ⟨h, hcf⟩
    · rw [h] at hn
      cases hn
    · obtain ⟨stx, hok⟩ := mkdirAll_ok_of_noFiles (prefixes root) ⟨fs0, []⟩
        (fun q hq c => hcf q hq c)
      rw [hok] at hmk
      cases hmk
  · rw [create_gitInit_count cfg oracle root fs0 _ _ heq]
    obtain ⟨Δ, h1, h2⟩ := mkdirAll_evs (prefixes root) ⟨fs0, []⟩
    rw [outSt_of_ok _ _ hmk] at h1
    have hzc : Δ.count Ev.gitInit = 0 :=
      count_eq_zero_of_isGitEv_false Δ Ev.gitInit rfl (mkdirAt_isGitEv_false Δ h2)
    rw [if_pos (Or.inl hn), h1]
    simp [List.count_append, hzc]
  · rw [create_failed cfg oracle root fs0 _ heq]
    obtain ⟨Δ, h1, h2⟩ := mkdirAll_evs (prefixes root) ⟨fs0, []⟩
    rw [outSt_of_ok _ _ hmk] at h1
    have hzc : Δ.count Ev.gitInit = 0 :=
      count_eq_zero_of_isGitEv_false Δ Ev.gitInit rfl (mkdirAt_isGitEv_false Δ h2)
    rw [if_pos (Or.inl hn)]
    show (st1.evs ++ [Ev.gitInit]).count Ev.gitInit = 1
    rw [h1]
    simp [List.count_append, hzc]

/-- Witness for C4 on an existing directory without a `.git` entry. -/
theorem c4_init_idempotent_witness :
    ((program (some "k") sampleCfg chunkOracle ["w"] [(["w"], Entry.dir)]).2.1).count
        Ev.gitInit =
      if Fs.find [(["w"], Entry.dir)] ["w"] = none ∨
          Fs.find [(["w"], Entry.dir)] (gitPath ["w"]) = none then 1 else 0 :=
  c4_init_idempotent "k" sampleCfg chunkOracle ["w"] [(["w"], Entry.dir)] (by decide)
    (Or.inl rfl)

/-- C7: for an absent target path with a creatable ancestor chain, the
directory-setup and repository-initialization steps succeed, mark the project
as new, and leave the path and all its ancestors as directories containing
the version-control metadata entry. -/
theorem c7_creates_directory (oracle : Oracle) (root : Path) (fs0 : Fs)
    (hroot : root ≠ []) (h0 : Fs.find fs0 root = none)
    (hcf : ∀ q ∈ prefixes root, ∀ c, Fs.find fs0 q ≠ some (Entry.file c))
    (hg : Fs.find fs0 (gitPath root) = none) (hio : oracle.initOk = true) :
    ∃ st, dirSetupAndInit oracle root fs0 = SetupResult.proceed st true ∧
      Fs.find st.fs root = some Entry.dir ∧
      (∀ q ∈ prefixes root, Fs.find st.fs q = some Entry.dir) ∧
      Fs.find st.fs (gitPath root) = some Entry.dir := by
  obtain ⟨st1, hmk⟩ := mkdirAll_ok_of_noFiles (prefixes root) ⟨fs0, []⟩
    (fun q hq c => hcf q hq c)
  have hdirs := mkdirAll_ok_dirs (prefixes root) ⟨fs0, []⟩ st1 hmk
  have hgit1 : Fs.find st1.fs (gitPath root) = none := by
    have hu := mkdirAll_untouched (prefixes root) ⟨fs0, []⟩ (gitPath root)
      (gitPath_not_mem_prefixes root)
    rw [outSt_of_ok _ _ hmk] at hu
    rw [hu]
    exact hg
  have hfs_eq : gitInitFs st1.fs root = Fs.set st1.fs (gitPath root) Entry.dir := by
    unfold gitInitFs
    rw [hgit1]
  refine ⟨⟨gitInitFs st1.fs root, st1.evs ++ [Ev.gitInit]⟩, ?_, ?_, ?_, ?_⟩
  · simp [dirSetupAndInit, h0, hmk, ensureGit, hio, emit]
  · show Fs.find (gitInitFs st1.fs root) root = some Entry.dir
    rw [hfs_eq, Fs.find_set]
    have hne : gitPath root ≠ root := by
      intro hh
      have hlen := congrArg List.length hh
      simp [gitPath] at hlen
    rw [if_neg hne]
    exact hdirs root (root_mem_prefixes root hroot)
  · intro q hq
    show Fs.find (gitInitFs st1.fs root) q = some Entry.dir
    rw [hfs_eq, Fs.find_set]
    have hne : gitPath root ≠ q := by
      intro hh
      rw [← hh] at hq
      exact gitPath_not_mem_prefixes root hq
    rw [if_neg hne]
    exact hdirs q hq
  · show Fs.find (gitInitFs st1.fs root) (gitPath root) = some Entry.dir
    rw [hfs_eq, Fs.find_set, if_pos rfl]

/-- Witness for C7 on a concrete absent two-component target path. -/
theorem c7_creates_directory_witness :
    ∃ st, dirSetupAndInit sampleOracle ["home", "proj"] [] = SetupResult.proceed st true ∧
      Fs.find st.fs ["home", "proj"] = some Entry.dir ∧
      (∀ q ∈ prefixes ["home", "proj"], Fs.find st.fs q = some Entry.dir) ∧
      Fs.find st.fs (gitPath ["home", "proj"]) = some Entry.dir :=
  c7_creates_directory sampleOracle ["home", "proj"] [] (by decide) rfl
    (fun q hq c h => Option.noConfusion h) rfl rfl

/-- C8: no cleanup or rollback on failure. First conjunct: when the stream
for the file at position `n` fails (the first `n` files having succeeded),
the run aborts — no staging and no commit happen, the writes performed are
exactly the first `n` resolved files, every path's last written content is
still on disk, and at most `n + 1` model requests were issued (the remaining
files are not processed). Second conjunct: when every generation succeeds,
staging succeeds, and the commit fails, the run aborts with the generated
filesystem intact, staging recorded, and the failed commit as the last
events. -/
theorem c8_no_cleanup_on_failure :
    (∀ (cfg : Config) (oracle : Oracle) (root : Path) (fs0 : Fs) (st : St) (b : Bool)
      (n : Nat) (stn : St),
      dirSetupAndInit oracle root fs0 = SetupResult.proceed st b →
      n < cfg.files.length →
      processFiles cfg oracle root (cfg.files.take n) 0 st = Except.ok stn →
      oracle.stream n = Except.error () →
      ∃ st', create_or_modify_project cfg oracle root fs0 = (st', true) ∧
        commitsOf st'.evs = [] ∧ Ev.gitAdd ∉ st'.evs ∧
        writesOf st'.evs = resolvedPaths root (cfg.files.take n) ∧
        (∀ p c, lastWriteAt st'.evs p = some c → Fs.find st'.fs p = some (Entry.file c)) ∧
        (promptsOf st'.evs).length ≤ n + 1) ∧
    (∀ (cfg : Config) (oracle : Oracle) (root : Path) (fs0 : Fs) (st : St) (b : Bool)
      (st3 : St),
      dirSetupAndInit oracle root fs0 = SetupResult.proceed st b →
      processFiles cfg oracle root cfg.files 0 st = Except.ok st3 →
      oracle.addOk = true → oracle.commitOk = false →
      create_or_modify_project cfg oracle root fs0 =
        (⟨st3.fs, st3.evs ++ [Ev.gitAdd, Ev.gitCommit cfg.commitMessage]⟩, true)) := by
  constructor
  · intro cfg oracle root fs0 st b n stn hsetup hn hpre hs
    obtain ⟨hw0, hc0, ha0, hp0, hl0⟩ := setup_proceed_trace_props oracle root fs0 st b hsetup
    have hdropne : cfg.files.drop n ≠ [] := by
      rw [Ne, List.drop_eq_nil_iff]
      omega
    obtain ⟨fp, rest, hdrop⟩ := List.exists_cons_of_ne_nil hdropne
    obtain ⟨stE, herr⟩ := pf_err_of_stream cfg oracle root fp n stn hs
    have hidx : 0 + (cfg.files.take n).length = n := by
      rw [List.length_take]
      omega
    have hfull : processFiles cfg oracle root cfg.files 0 st = Except.error stE := by
      conv_lhs => rw [← List.take_append_drop n cfg.files]
      rw [pfs_append cfg oracle root (cfg.files.take n) (cfg.files.drop n) 0 st, hpre]
      show processFiles cfg oracle root (cfg.files.drop n)
        (0 + (cfg.files.take n).length) stn = Except.error stE
      rw [hidx, hdrop]
      exact pfs_cons_err cfg oracle root fp rest n stn stE herr
    have hcreate := create_proceed_err cfg oracle root fs0 st stE b hsetup hfull
    obtain ⟨Δp, hp1, hp2⟩ := pfs_evs_shape cfg oracle root (cfg.files.take n) 0 st
    rw [outSt_of_ok _ _ hpre] at hp1
    obtain ⟨Δf, hf1, hf2⟩ := pf_evs_shape cfg oracle root fp n stn
    rw [outSt_of_err _ _ herr] at hf1
    refine ⟨stE, hcreate, ?_, ?_, ?_, ?_, ?_⟩
    · rw [hf1, hp1, commitsOf_append, commitsOf_append, hc0,
        commitsOf_eq_nil Δp hp2, commitsOf_eq_nil Δf hf2]
      rfl
    · intro hmem
      rw [hf1, hp1] at hmem
      rcases List.mem_append.mp hmem with hh | hh
      · rcases List.mem_append.mp hh with hg | hg
        · exact ha0 hg
        · exact Bool.noConfusion (hp2 _ hg)
      · exact Bool.noConfusion (hf2 _ hh)
    · rw [pf_writes_err cfg oracle root fp n stn stE herr,
        pfs_writes_ok cfg oracle root (cfg.files.take n) 0 st stn hpre, hw0,
        List.nil_append]
    · have hwst : WInv st := by
        intro p c hlw
        rw [hl0 p] at hlw
        cases hlw
      have hwn : WInv stn := by
        have := pfs_WInv cfg oracle root (cfg.files.take n) 0 st hwst
        rwa [outSt_of_ok _ _ hpre] at this
      have := pf_WInv cfg oracle root fp n stn hwn
      rwa [outSt_of_err _ _ herr] at this
    · have hle := pf_prompts_le cfg oracle root fp n stn
      rw [outSt_of_err _ _ herr] at hle
      have hlen := pfs_prompts_len_ok cfg oracle root (cfg.files.take n) 0 st stn hpre
      rw [hp0] at hlen
      simp only [List.length_nil, Nat.zero_add, List.length_take] at hlen
      omega
  · intro cfg oracle root fs0 st b st3 hsetup hpfs ha hc
    rw [create_proceed_ok cfg oracle root fs0 st st3 b hsetup hpfs,
      fin_add_ok cfg oracle st3 ha, hc]
    rfl

/-- The filesystem shared by the C8 witness runs: an existing repository. -/
def c8Fs : Fs := [(["w"], Entry.dir), (["w", ".git"], Entry.dir)]

/-- An environment for the C8 witness whose stream succeeds for the first
file and fails for every later one. -/
def c8aOracle : Oracle :=
  ⟨fun i => if i = 0 then Except.ok sampleChunks else Except.error (), true, true, true⟩

/-- An environment for the C8 witness whose streams and staging succeed but
whose commit fails. -/
def c8bOracle : Oracle := ⟨fun _ => Except.ok sampleChunks, true, true, false⟩

/-- Witness for C8: a concrete failing stream for the second of two files,
and a concrete failing commit after two successful generations. -/
theorem c8_no_cleanup_on_failure_witness :
    (∃ st', create_or_modify_project c3Cfg c8aOracle ["w"] c8Fs = (st', true) ∧
      commitsOf st'.evs = [] ∧ Ev.gitAdd ∉ st'.evs ∧
      writesOf st'.evs = resolvedPaths ["w"] (c3Cfg.files.take 1) ∧
      (∀ p c, lastWriteAt st'.evs p = some c → Fs.find st'.fs p = some (Entry.file c)) ∧
      (promptsOf st'.evs).length ≤ 1 + 1) ∧
    create_or_modify_project c3Cfg c8bOracle ["w"] c8Fs =
      (⟨(outSt (processFiles c3Cfg c8bOracle ["w"] c3Cfg.files 0 ⟨c8Fs, []⟩)).fs,
        (outSt (processFiles c3Cfg c8bOracle ["w"] c3Cfg.files 0 ⟨c8Fs, []⟩)).evs ++
          [Ev.gitAdd, Ev.gitCommit c3Cfg.commitMessage]⟩, true) :=
  ⟨c8_no_cleanup_on_failure.1 c3Cfg c8aOracle ["w"] c8Fs ⟨c8Fs, []⟩ false 1
      (outSt (processFiles c3Cfg c8aOracle ["w"] (c3Cfg.files.take 1) 0 ⟨c8Fs, []⟩))
      (by rfl) (by decide) (by rfl) (by rfl),
    c8_no_cleanup_on_failure.2 c3Cfg c8bOracle ["w"] c8Fs ⟨c8Fs, []⟩ false
      (outSt (processFiles c3Cfg c8bOracle ["w"] c3Cfg.files 0 ⟨c8Fs, []⟩))
      (by rfl) (by rfl) rfl rfl⟩

/-- C10: frame property of a whole run — every path that held an entry in the
initial filesystem either holds it unchanged afterwards, or is one of the
listed files' resolved paths and holds a regular file; in particular every
file outside the file list keeps its content and no entry is ever deleted. -/
theorem c10_frame (apiKey : Option String) (cfg : Config) (oracle : Oracle) (root : Path)
    (fs0 : Fs) (p : Path) (e : Entry) (h : Fs.find fs0 p = some e) :
    Fs.find (program apiKey cfg oracle root fs0).1 p = some e ∨
      (p ∈ resolvedPaths root cfg.files ∧
        ∃ c, Fs.find (program apiKey cfg oracle root fs0).1 p = some (Entry.file c)) := by
  cases apiKey with
  | none =>
    left
    rw [program_none]
    exact h
  | some k =>
    by_cases hk : k = ""
    · subst hk
      left
      have hred : program (some "") cfg oracle root fs0 =
          (fs0, [Ev.message keyErrMsg], 1) := rfl
      rw [hred]
      exact h
    · rw [program_some k cfg oracle root fs0 hk]
      exact create_fs_frame cfg oracle root fs0 p e h

/-- The initial filesystem of the C10 witness: a repository holding one file
that is not in the requested list. -/
def c10Fs : Fs :=
  [(["w"], Entry.dir), (["w", ".git"], Entry.dir), (["w", "keep.txt"], Entry.file "keep")]

/-- Witness for C10 on a concrete run: the unrelated file's entry. -/
theorem c10_frame_witness :
    Fs.find (program (some "k") sampleCfg chunkOracle ["w"] c10Fs).1 ["w", "keep.txt"]
        = some (Entry.file "keep") ∨
      (["w", "keep.txt"] ∈ resolvedPaths ["w"] sampleCfg.files ∧
        ∃ c, Fs.find (program (some "k") sampleCfg chunkOracle ["w"] c10Fs).1
          ["w", "keep.txt"] = some (Entry.file c)) :=
  c10_frame (some "k") sampleCfg chunkOracle ["w"] c10Fs ["w", "keep.txt"]
    (Entry.file "keep") (by rfl)

end ClaudeCodeWriter
